import Mathlib

/-!
Verification of the rule-matching and action-application engine of the
chaos-tproxy repository (`src/handler.rs`).

The embedding is byte-level: Rust `String`/`&str`/`Bytes` values are
modelled as `List Nat` (their UTF-8 bytes), `http::uri::PathAndQuery` as its
validated data bytes (the stored string, query position = first `0x3F`),
and `http::Uri` as scheme/authority (opaque, only presence is inspected by
the code under verification) plus path-and-query data.  The parsing and
re-encoding behaviour of the `http`, `form_urlencoded` and
`serde_urlencoded` crates, which `handler.rs` calls into, is reproduced
from those crates' sources.
-/

namespace Tproxy

/-! ## Byte classes of `http::uri::PathAndQuery` parsing

From `PathAndQuery::from_shared` in the `http` crate: in the path section
the bytes 0x21, 0x24–0x3B, 0x3D, 0x40–0x5F, 0x61–0x7A, 0x7C, 0x7E are
accepted, as are `"`, `{`, `}` (0x22, 0x7B, 0x7D) for compatibility; in the
query section 0x21, 0x24–0x3B, 0x3D, 0x3F–0x7E are accepted.  `?` (0x3F)
switches from path to query section; `#` (0x23) truncates the input (the
fragment is dropped); any other byte is an `InvalidUriChar` error. -/

def pathAllowed (b : Nat) : Bool :=
  decide (b = 0x21 ∨ (0x24 ≤ b ∧ b ≤ 0x3B) ∨ b = 0x3D ∨ (0x40 ≤ b ∧ b ≤ 0x5F) ∨
    (0x61 ≤ b ∧ b ≤ 0x7A) ∨ b = 0x7C ∨ b = 0x7E ∨ b = 0x22 ∨ b = 0x7B ∨ b = 0x7D)

def queryAllowed (b : Nat) : Bool :=
  decide (b = 0x21 ∨ (0x24 ≤ b ∧ b ≤ 0x3B) ∨ b = 0x3D ∨ (0x3F ≤ b ∧ b ≤ 0x7E))

/-- Query section of `PathAndQuery::from_shared`: validate until the end,
truncating at `#`. -/
def paqScanQuery : List Nat → Option (List Nat)
  | [] => some []
  | b :: rest =>
    if b = 0x23 then some []
    else if queryAllowed b then (paqScanQuery rest).map (fun t => b :: t)
    else none

/-- Path section of `PathAndQuery::from_shared`: validate until `?` (switch
to the query section) or `#` (truncate). -/
def paqScanPath : List Nat → Option (List Nat)
  | [] => some []
  | b :: rest =>
    if b = 0x3F then (paqScanQuery rest).map (fun t => 0x3F :: t)
    else if b = 0x23 then some []
    else if pathAllowed b then (paqScanPath rest).map (fun t => b :: t)
    else none

/-- `PathAndQuery::from_shared` / `str::parse::<PathAndQuery>`: `none` is
the `InvalidUri` error, `some data` the stored (possibly `#`-truncated)
bytes. -/
def paqParse (s : List Nat) : Option (List Nat) := paqScanPath s

/-- `PathAndQuery::path`: the bytes before the first `?`, with the empty
path presented as `/`. -/
def paqPath (data : List Nat) : List Nat :=
  let p := data.takeWhile (fun b => b != 0x3F)
  if p.isEmpty then [0x2F] else p

/-- `PathAndQuery::query`: the bytes after the first `?`, if any. -/
def paqQuery (data : List Nat) : Option (List Nat) :=
  if data.any (fun b => b == 0x3F) then
    some ((data.dropWhile (fun b => b != 0x3F)).tail)
  else none

/-- `Display for PathAndQuery`: empty data prints as `/`, data not starting
with `/` or `*` gets a `/` prepended. -/
def paqDisplay (data : List Nat) : List Nat :=
  match data with
  | [] => [0x2F]
  | b :: _ => if b = 0x2F ∨ b = 0x2A then data else 0x2F :: data

/-- A `PathAndQuery` data value as parsing produces it: re-parsing returns
it unchanged (all bytes in the allowed classes, no `#`).  Every
`PathAndQuery` held by a real `http::Uri` satisfies this, since the only
constructor is the validating, `#`-truncating parse. -/
def PaqValid (data : List Nat) : Prop := paqParse data = some data

instance : DecidablePred PaqValid := fun data =>
  inferInstanceAs (Decidable (paqParse data = some data))

/-! ## `http::Uri` and `Parts`

`Uri` always carries a `PathAndQuery` value (possibly with empty data);
`Uri::into_parts` presents it as `None` exactly when the uri "has no path"
(empty data and no scheme), and `Uri::from_parts` validates the
scheme/authority/path combination.  The scheme and authority themselves are
never inspected by `handler.rs`, so they are carried as opaque optional
byte strings. -/

structure Uri where
  scheme : Option (List Nat)
  authority : Option (List Nat)
  paqData : List Nat
deriving DecidableEq

structure UriParts where
  scheme : Option (List Nat)
  authority : Option (List Nat)
  paq : Option (List Nat)
deriving DecidableEq

/-- `Uri::has_path`: `!path_and_query.data.is_empty() || scheme.is_some()`. -/
def Uri.hasPath (u : Uri) : Bool := !u.paqData.isEmpty || u.scheme.isSome

/-- `Uri::path`: the path component, `""` when the uri has no path. -/
def Uri.path (u : Uri) : List Nat := if u.hasPath then paqPath u.paqData else []

/-- `Uri::query`. -/
def Uri.query (u : Uri) : Option (List Nat) := paqQuery u.paqData

/-- `Uri::into_parts` (`From<Uri> for Parts`). -/
def Uri.intoParts (u : Uri) : UriParts :=
  { scheme := u.scheme, authority := u.authority,
    paq := if u.hasPath then some u.paqData else none }

/-- `Uri::from_parts`: a scheme requires an authority and a path-and-query;
without a scheme, an authority together with a path-and-query is rejected
(`SchemeMissing`).  A missing path-and-query becomes `PathAndQuery::empty`. -/
def Uri.fromParts (p : UriParts) : Option Uri :=
  if p.scheme.isSome then
    if p.authority.isNone then none
    else if p.paq.isNone then none
    else some { scheme := p.scheme, authority := p.authority, paqData := p.paq.getD [] }
  else if p.authority.isSome && p.paq.isSome then none
  else some { scheme := p.scheme, authority := p.authority, paqData := p.paq.getD [] }

/-- The shape invariant every `http::Uri` produced by the crate's parsers or
`from_parts` satisfies: a scheme comes with an authority, and an authority
without a scheme comes only with an empty path-and-query (authority-form). -/
def Uri.WF (u : Uri) : Prop :=
  (u.scheme.isSome = true → u.authority.isSome = true) ∧
  (u.scheme = none → u.authority = none ∨ u.paqData = [])

instance (u : Uri) : Decidable u.WF := by
  unfold Uri.WF; infer_instance

/-! ## UTF-8 lossy decoding

`form_urlencoded`'s `decode` runs the percent-decoded bytes through
`String::from_utf8_lossy`.  `utf8Lossy` reproduces Rust's substitution of
maximal subparts: an invalid sequence is replaced by one U+FFFD
(bytes EF BF BD) spanning the bytes consumed before the offending byte,
and scanning resumes at the offending byte. -/

def utf8Cont (b : Nat) : Bool := decide (0x80 ≤ b ∧ b ≤ 0xBF)

/-- Allowed second byte of a three-byte sequence with lead `b`. -/
def utf8Second3 (b c : Nat) : Bool :=
  if b = 0xE0 then decide (0xA0 ≤ c ∧ c ≤ 0xBF)
  else if b = 0xED then decide (0x80 ≤ c ∧ c ≤ 0x9F)
  else utf8Cont c

/-- Allowed second byte of a four-byte sequence with lead `b`. -/
def utf8Second4 (b c : Nat) : Bool :=
  if b = 0xF0 then decide (0x90 ≤ c ∧ c ≤ 0xBF)
  else if b = 0xF4 then decide (0x80 ≤ c ∧ c ≤ 0x8F)
  else utf8Cont c

/-- UTF-8 encoding of U+FFFD. -/
def replacementChar : List Nat := [0xEF, 0xBF, 0xBD]

def utf8Lossy : List Nat → List Nat
  | [] => []
  | b :: rest =>
    if b < 0x80 then b :: utf8Lossy rest
    else if 0xC2 ≤ b ∧ b ≤ 0xDF then
      match rest with
      | [] => replacementChar
      | c :: rest2 =>
        if utf8Cont c then b :: c :: utf8Lossy rest2
        else replacementChar ++ utf8Lossy (c :: rest2)
    else if 0xE0 ≤ b ∧ b ≤ 0xEF then
      match rest with
      | [] => replacementChar
      | c :: rest2 =>
        if utf8Second3 b c then
          match rest2 with
          | [] => replacementChar
          | d :: rest3 =>
            if utf8Cont d then b :: c :: d :: utf8Lossy rest3
            else replacementChar ++ utf8Lossy (d :: rest3)
        else replacementChar ++ utf8Lossy (c :: rest2)
    else if 0xF0 ≤ b ∧ b ≤ 0xF4 then
      match rest with
      | [] => replacementChar
      | c :: rest2 =>
        if utf8Second4 b c then
          match rest2 with
          | [] => replacementChar
          | d :: rest3 =>
            if utf8Cont d then
              match rest3 with
              | [] => replacementChar
              | e :: rest4 =>
                if utf8Cont e then b :: c :: d :: e :: utf8Lossy rest4
                else replacementChar ++ utf8Lossy (e :: rest4)
            else replacementChar ++ utf8Lossy (d :: rest3)
        else replacementChar ++ utf8Lossy (c :: rest2)
    else replacementChar ++ utf8Lossy rest

/-- A byte string whose lossy UTF-8 decoding is itself, i.e. valid UTF-8.
Every Rust `String` satisfies this by construction. -/
def ValidUtf8 (bs : List Nat) : Prop := utf8Lossy bs = bs

instance : DecidablePred ValidUtf8 := fun bs =>
  inferInstanceAs (Decidable (utf8Lossy bs = bs))

/-! ## Percent codec (`form_urlencoded` / `percent_encoding`) -/

/-- Value of an ASCII hex digit, both cases (`percent_encoding`). -/
def hexVal (b : Nat) : Option Nat :=
  if 0x30 ≤ b ∧ b ≤ 0x39 then some (b - 0x30)
  else if 0x41 ≤ b ∧ b ≤ 0x46 then some (b - 0x41 + 10)
  else if 0x61 ≤ b ∧ b ≤ 0x66 then some (b - 0x61 + 10)
  else none

/-- `percent_encoding::percent_decode`: `%` followed by two hex digits
becomes that byte; a `%` not so followed stays literal and scanning resumes
at the next byte. -/
def percentDecode : List Nat → List Nat
  | b :: h1 :: h2 :: rest =>
    if b = 0x25 then
      match hexVal h1, hexVal h2 with
      | some x, some y => (x * 16 + y) :: percentDecode rest
      | _, _ => b :: percentDecode (h1 :: h2 :: rest)
    else b :: percentDecode (h1 :: h2 :: rest)
  | [b, c] => [b, c]
  | [b] => [b]
  | [] => []

/-- `form_urlencoded::replace_plus`: `+` becomes a space before percent
decoding. -/
def plusToSpace (b : Nat) : Nat := if b = 0x2B then 0x20 else b

/-- `form_urlencoded`'s `decode`: replace `+`, percent-decode, then decode
the bytes as UTF-8 lossily. -/
def decodePart (s : List Nat) : List Nat :=
  utf8Lossy (percentDecode (s.map plusToSpace))

/-- Uppercase hex digit (`percent_encoding` serialises with uppercase). -/
def hexUpper (n : Nat) : Nat := if n < 10 then 0x30 + n else 0x37 + n

/-- `form_urlencoded::byte_serialized_unchanged`: `*`, `-`, `.`, `0-9`,
`A-Z`, `_`, `a-z` pass through. -/
def byteSerializedUnchanged (b : Nat) : Bool :=
  decide (b = 0x2A ∨ b = 0x2D ∨ b = 0x2E ∨ (0x30 ≤ b ∧ b ≤ 0x39) ∨
    (0x41 ≤ b ∧ b ≤ 0x5A) ∨ b = 0x5F ∨ (0x61 ≤ b ∧ b ≤ 0x7A))

/-- `form_urlencoded::byte_serialize`, one byte: unchanged, space to `+`,
or `%XX`. -/
def encodeByte (b : Nat) : List Nat :=
  if byteSerializedUnchanged b then [b]
  else if b = 0x20 then [0x2B]
  else [0x25, hexUpper (b / 16), hexUpper (b % 16)]

def encodePart : List Nat → List Nat
  | [] => []
  | b :: rest => encodeByte b ++ encodePart rest

/-- `form_urlencoded::Serializer`: pairs are joined with `&`. -/
def joinPairs : List (List Nat) → List Nat
  | [] => []
  | [p] => p
  | p :: ps => p ++ 0x26 :: joinPairs ps

/-- `serde_urlencoded::to_string` of a string-to-string map: each pair is
serialised as `key=value` with both sides byte-serialised, pairs joined
with `&`, in the map's iteration order. -/
def urlencode (m : List (List Nat × List Nat)) : List Nat :=
  joinPairs (m.map (fun kv => encodePart kv.1 ++ 0x3D :: encodePart kv.2))

/-! ## Query deserialisation into a map (`serde_urlencoded::from_str`) -/

/-- Split on a separator byte, keeping empty pieces. -/
def splitOnByte (sep : Nat) : List Nat → List (List Nat)
  | [] => [[]]
  | b :: rest =>
    if b = sep then [] :: splitOnByte sep rest
    else
      match splitOnByte sep rest with
      | [] => [[b]]
      | p :: ps => (b :: p) :: ps

/-- `form_urlencoded::parse`, name side of one `&`-piece: the bytes before
the first `=` (the whole piece if there is none). -/
def pairName (piece : List Nat) : List Nat := piece.takeWhile (fun b => b != 0x3D)

/-- `form_urlencoded::parse`, value side of one `&`-piece: the bytes after
the first `=` (empty if there is none). -/
def pairValue (piece : List Nat) : List Nat := (piece.dropWhile (fun b => b != 0x3D)).tail

/-- `form_urlencoded::parse`: split on `&`, skip empty pieces, split each
piece at its first `=`, decode both sides. -/
def urldecodePairs (s : List Nat) : List (List Nat × List Nat) :=
  ((splitOnByte 0x26 s).filter (fun p => !p.isEmpty)).map
    (fun p => (decodePart (pairName p), decodePart (pairValue p)))

/-! ## Association-list model of `HashMap<String, String>`

Only lookup and insert-with-overwrite are used by `handler.rs`; iteration
order of the Rust `HashMap` is unspecified (randomised), here it is
insertion order.  All theorems about query maps are stated through
`mapLookup`, which is independent of that choice. -/

def mapLookup (m : List (List Nat × List Nat)) (k : List Nat) : Option (List Nat) :=
  (m.find? (fun kv => kv.1 == k)).map (fun kv => kv.2)

def mapInsert : List (List Nat × List Nat) → List Nat → List Nat →
    List (List Nat × List Nat)
  | [], k, v => [(k, v)]
  | kv :: m, k, v => if kv.1 == k then (k, v) :: m else kv :: mapInsert m k v

/-- `HashMap::extend`: insert each pair of `qs`, overwriting per key. -/
def mapExtend (base qs : List (List Nat × List Nat)) : List (List Nat × List Nat) :=
  qs.foldl (fun m kv => mapInsert m kv.1 kv.2) base

/-- `serde_urlencoded::from_str::<HashMap<String, String>>`: deserialise
the decoded pairs into a map, later occurrences of a key overwriting
earlier ones.  (For this target type the call is total: decoding is lossy,
never failing.) -/
def decodeMap (s : List Nat) : List (List Nat × List Nat) :=
  mapExtend [] (urldecodePairs s)

/-- Keys of an association list are pairwise distinct (the domain of lists
that model a `HashMap`). -/
def NoDupKeys (m : List (List Nat × List Nat)) : Prop :=
  (m.map (fun kv => kv.1)).Nodup

instance (m : List (List Nat × List Nat)) : Decidable (NoDupKeys m) := by
  unfold NoDupKeys
  infer_instance

/-! ## Data model (`handler.rs` lines 12–57)

`HeaderMap` is modelled as an ordered list of (name, value) pairs; header
names are stored in their normalised (lowercased) form, as `http::HeaderName`
guarantees.  `Method`, `StatusCode`, `Duration` and bodies are opaque. -/

inductive Target where
  | request
  | response
deriving DecidableEq

structure Selector where
  port : Option Nat
  path : Option (List Nat)
  method : Option (List Nat)
  headers : Option (List (List Nat × List Nat))
  code : Option Nat
  response_headers : Option (List (List Nat × List Nat))
deriving DecidableEq

structure AppendAction where
  queries : Option (List Nat)
  headers : Option (List (List Nat × List Nat))
deriving DecidableEq

structure ReplaceAction where
  path : Option (List Nat)
  method : Option (List Nat)
  body : Option (List Nat)
  code : Option Nat
  queries : Option (List (List Nat × List Nat))
  headers : Option (List (List Nat × List Nat))
deriving DecidableEq

structure Actions where
  abort : Bool
  delay : Option Nat
  append : Option AppendAction
  replace : Option ReplaceAction
deriving DecidableEq

structure Rule where
  target : Target
  selector : Selector
  actions : Actions

structure Request where
  uri : Uri
  method : List Nat
  headers : List (List Nat × List Nat)
  body : List Nat
deriving DecidableEq

structure Response where
  status : Nat
  headers : List (List Nat × List Nat)
  body : List Nat
deriving DecidableEq

/-- `HeaderMap::get_all(name)`: every value stored under `name`. -/
def get_all (headers : List (List Nat × List Nat)) (name : List Nat) : List (List Nat) :=
  (headers.filter (fun kv => kv.1 == name)).map (fun kv => kv.2)

/-- `HeaderMap::append`: one more occurrence, existing values kept. -/
def headerAppendAll (headers hdrs : List (List Nat × List Nat)) :
    List (List Nat × List Nat) :=
  hdrs.foldl (fun acc kv => acc ++ [kv]) headers

/-- `HeaderMap::insert` for each given entry: all previous values of the
name are dropped and replaced by the one new value. -/
def headerInsertAll (headers hdrs : List (List Nat × List Nat)) :
    List (List Nat × List Nat) :=
  hdrs.foldl (fun acc kv => acc.filter (fun e => !(e.1 == kv.1)) ++ [kv]) headers

/-! ## Selector matcher (`handler.rs` lines 59–102) -/

/-- `select_request` (`handler.rs:59`). -/
def select_request (port : Nat) (request : Request) (selector : Selector) : Bool :=
  selector.port.all (fun p => port == p) &&
  selector.path.all (fun p => (paqPath p).isPrefixOf request.uri.path) &&
  selector.method.all (fun m => request.method == m) &&
  selector.headers.all (fun fields =>
    fields.all (fun hv => (get_all request.headers hv.1).any (fun f => f == hv.2)))

/-- `select_response` (`handler.rs:73`): `uri`, `method` and
`request_headers` are the captured originating-request context. -/
def select_response (port : Nat) (uri : Uri) (method : List Nat)
    (request_headers : List (List Nat × List Nat)) (response : Response)
    (selector : Selector) : Bool :=
  selector.port.all (fun p => port == p) &&
  selector.path.all (fun p => (paqPath p).isPrefixOf uri.path) &&
  selector.method.all (fun m => method == m) &&
  selector.code.all (fun code => response.status == code) &&
  selector.headers.all (fun fields =>
    fields.all (fun hv => (get_all request_headers hv.1).any (fun f => f == hv.2))) &&
  selector.response_headers.all (fun fields =>
    fields.all (fun hv => (get_all response.headers hv.1).any (fun f => f == hv.2)))

/-! ## URI rewriters (`handler.rs` lines 150–214)

Each Rust function takes `&mut Uri` and returns `anyhow::Result<()>`; it is
embedded as a function returning the pair (result, final value of the
`Uri`).  All failure paths in the Rust code occur before the final
`*uri = ...` assignment, which the embedding mirrors by returning the
original uri alongside the error. -/

inductive ProxyError where
  | abortApplied
  | invalidUri
deriving DecidableEq

instance {ε α : Type} [DecidableEq ε] [DecidableEq α] : DecidableEq (Except ε α) :=
  fun x y =>
    match x, y with
    | .ok a, .ok b => decidable_of_iff (a = b) (by simp)
    | .error a, .error b => decidable_of_iff (a = b) (by simp)
    | .ok _, .error _ => isFalse (by simp)
    | .error _, .ok _ => isFalse (by simp)

/-- `append_queries` (`handler.rs:150`). -/
def append_queries (uri : Uri) (raw_queries : Option (List Nat)) :
    Except ProxyError Unit × Uri :=
  let queries := raw_queries.getD []
  if queries.isEmpty then (.ok (), uri)
  else
    let parts := uri.intoParts
    let incoming : List Nat :=
      match parts.paq with
      | some old =>
        if (paqQuery old).isSome then paqDisplay old ++ 0x26 :: queries
        else paqDisplay old ++ 0x3F :: queries
      | none => 0x2F :: 0x3F :: queries
    match paqParse incoming with
    | none => (.error .invalidUri, uri)
    | some d =>
      match Uri.fromParts { parts with paq := some d } with
      | none => (.error .invalidUri, uri)
      | some u => (.ok (), u)

/-- `replace_path` (`handler.rs:170`). -/
def replace_path (uri : Uri) (raw_path : Option (List Nat)) :
    Except ProxyError Unit × Uri :=
  match raw_path with
  | none => (.ok (), uri)
  | some p =>
    let path := if p.isEmpty then [0x2F] else p
    let parts := uri.intoParts
    match parts.paq with
    | some paq0 =>
      let newPaq :=
        match paqQuery paq0 with
        | some q => paqParse (path ++ 0x3F :: q)
        | none => paqParse path
      match newPaq with
      | none => (.error .invalidUri, uri)
      | some d =>
        match Uri.fromParts { parts with paq := some d } with
        | none => (.error .invalidUri, uri)
        | some u => (.ok (), u)
    | none =>
      match Uri.fromParts parts with
      | none => (.error .invalidUri, uri)
      | some u => (.ok (), u)

/-- `replace_queries` (`handler.rs:190`). -/
def replace_queries (uri : Uri) (queries : Option (List (List Nat × List Nat))) :
    Except ProxyError Unit × Uri :=
  match queries with
  | none => (.ok (), uri)
  | some qs =>
    let parts := uri.intoParts
    let old_query := (parts.paq.bind paqQuery).getD []
    let query_map := mapExtend (decodeMap old_query) qs
    let path := (parts.paq.map paqPath).getD [0x2F]
    let encoded := urlencode query_map
    let newPaq := if encoded.isEmpty then paqParse path
                  else paqParse (path ++ 0x3F :: encoded)
    match newPaq with
    | none => (.error .invalidUri, uri)
    | some d =>
      match Uri.fromParts { parts with paq := some d } with
      | none => (.error .invalidUri, uri)
      | some u => (.ok (), u)

/-! ## Action applicators (`handler.rs` lines 104–148 and 216–255)

The `sleep(delay)` effect is recorded in the success value as the optional
duration slept, so that statements about "no delay occurs" are expressible;
everything else is a pure transformation of the request/response. -/

/-- `apply_request_action` (`handler.rs:105`). -/
def apply_request_action (request : Request) (actions : Actions) :
    Except ProxyError (Request × Option Nat) :=
  if actions.abort then .error .abortApplied
  else
    let step1 : Except ProxyError Request :=
      match actions.append with
      | none => .ok request
      | some app =>
        match append_queries request.uri app.queries with
        | (.error e, _) => .error e
        | (.ok _, u) =>
          let r := { request with uri := u }
          match app.headers with
          | none => .ok r
          | some hdrs => .ok { r with headers := headerAppendAll r.headers hdrs }
    match step1 with
    | .error e => .error e
    | .ok r1 =>
      let step2 : Except ProxyError Request :=
        match actions.replace with
        | none => .ok r1
        | some rep =>
          match replace_path r1.uri rep.path with
          | (.error e, _) => .error e
          | (.ok _, u1) =>
            let r := { r1 with uri := u1 }
            let r := match rep.method with
                     | none => r
                     | some md => { r with method := md }
            let r := match rep.body with
                     | none => r
                     | some data => { r with body := data }
            match replace_queries r.uri rep.queries with
            | (.error e, _) => .error e
            | (.ok _, u2) =>
              let r := { r with uri := u2 }
              match rep.headers with
              | none => .ok r
              | some hdrs => .ok { r with headers := headerInsertAll r.headers hdrs }
      match step2 with
      | .error e => .error e
      | .ok r2 => .ok (r2, actions.delay)

/-- ASCII text as its byte list (used for concrete inputs). -/
def asciiBytes (s : String) : List Nat := s.data.map (fun c => c.toNat)

/-- The last occurrence of key `k` among decoded query pairs, as
`HashMap` deserialisation (later inserts overwrite earlier ones) sees it. -/
def lastPairLookup (ps : List (List Nat × List Nat)) (k : List Nat) : Option (List Nat) :=
  (ps.reverse.find? (fun kv => kv.1 == k)).map (fun kv => kv.2)

/-- A query string is well formed when percent-plus-decoding each of its
pairs' names and values yields valid UTF-8 (so the lossy decoding step is
the identity on them). -/
def WellFormedQuery (s : List Nat) : Prop :=
  ∀ p ∈ (splitOnByte 0x26 s).filter (fun p => !p.isEmpty),
    ValidUtf8 (percentDecode ((pairName p).map plusToSpace)) ∧
    ValidUtf8 (percentDecode ((pairValue p).map plusToSpace))

instance (s : List Nat) : Decidable (WellFormedQuery s) := by
  unfold WellFormedQuery
  infer_instance

/-- `apply_response_action` (`handler.rs:217`). -/
def apply_response_action (response : Response) (actions : Actions) :
    Except ProxyError (Response × Option Nat) :=
  if actions.abort then .error .abortApplied
  else
    let r1 := match actions.append with
              | none => response
              | some app =>
                match app.headers with
                | none => response
                | some hdrs => { response with headers := headerAppendAll response.headers hdrs }
    let r2 := match actions.replace with
              | none => r1
              | some rep =>
                let r := match rep.code with
                         | none => r1
                         | some co => { r1 with status := co }
                let r := match rep.body with
                         | none => r
                         | some data => { r with body := data }
                match rep.headers with
                | none => r
                | some hdrs => { r with headers := headerInsertAll r.headers hdrs }
    .ok (r2, actions.delay)

/-! # Theorems -/

/-! ## Helper lemmas: takeWhile/dropWhile and byte classes -/

theorem takeWhile_append_stop {p : Nat → Bool} {a : List Nat} {c : Nat} {b : List Nat}
    (ha : ∀ x ∈ a, p x = true) (hc : p c = false) :
    (a ++ c :: b).takeWhile p = a := by
  induction a with
  | nil => rw [List.nil_append, List.takeWhile_cons, hc]; rfl
  | cons x xs ih =>
    have hx : p x = true := ha x (by simp)
    rw [List.cons_append, List.takeWhile_cons, hx, if_pos rfl,
      ih (fun y hy => ha y (by simp [hy]))]

theorem dropWhile_append_stop {p : Nat → Bool} {a : List Nat} {c : Nat} {b : List Nat}
    (ha : ∀ x ∈ a, p x = true) (hc : p c = false) :
    (a ++ c :: b).dropWhile p = c :: b := by
  induction a with
  | nil => rw [List.nil_append, List.dropWhile_cons, hc]; rfl
  | cons x xs ih =>
    have hx : p x = true := ha x (by simp)
    rw [List.cons_append, List.dropWhile_cons, hx, if_pos rfl,
      ih (fun y hy => ha y (by simp [hy]))]

theorem takeWhile_all {p : Nat → Bool} {a : List Nat} (ha : ∀ x ∈ a, p x = true) :
    a.takeWhile p = a := by
  induction a with
  | nil => rfl
  | cons x xs ih =>
    have hx : p x = true := ha x (by simp)
    rw [List.takeWhile_cons, hx, if_pos rfl, ih (fun y hy => ha y (by simp [hy]))]

theorem pathAllowed_props {b : Nat} (h : pathAllowed b = true) :
    b ≠ 0x3F ∧ b ≠ 0x23 ∧ b < 256 := by
  rw [pathAllowed, decide_eq_true_eq] at h
  refine ⟨?_, ?_, ?_⟩ <;>
    rcases h with h | h | h | h | h | h | h | h | h | h <;> omega

theorem queryAllowed_props {b : Nat} (h : queryAllowed b = true) :
    b ≠ 0x23 ∧ b < 256 := by
  rw [queryAllowed, decide_eq_true_eq] at h
  refine ⟨?_, ?_⟩ <;> rcases h with h | h | h | h <;> omega

/-! ## Helper lemmas: path and query components of concatenated data -/

theorem paqQuery_append_sep {x : List Nat} (y : List Nat) (hx : ∀ b ∈ x, b ≠ 0x3F) :
    paqQuery (x ++ 0x3F :: y) = some y := by
  have hany : (x ++ 0x3F :: y).any (fun b => b == 0x3F) = true := by
    simp [List.any_append]
  have hdrop : (x ++ 0x3F :: y).dropWhile (fun b => b != 0x3F) = 0x3F :: y :=
    dropWhile_append_stop (fun b hb => by simp [hx b hb]) (by simp)
  rw [paqQuery, if_pos hany, hdrop]
  rfl

theorem paqQuery_no_sep {x : List Nat} (hx : ∀ b ∈ x, b ≠ 0x3F) :
    paqQuery x = none := by
  have hany : ¬ (x.any (fun b => b == 0x3F) = true) := by
    simp only [List.any_eq_true, not_exists]
    intro b
    rw [not_and]
    intro hb
    simp [hx b hb]
  rw [paqQuery, if_neg hany]

theorem paqPath_append_sep {x : List Nat} (y : List Nat) (hx : ∀ b ∈ x, b ≠ 0x3F)
    (hne : x ≠ []) : paqPath (x ++ 0x3F :: y) = x := by
  have htake : (x ++ 0x3F :: y).takeWhile (fun b => b != 0x3F) = x :=
    takeWhile_append_stop (fun b hb => by simp [hx b hb]) (by simp)
  rw [paqPath]
  simp only [htake]
  rw [if_neg (by simpa using hne)]

theorem paqPath_no_sep {x : List Nat} (hx : ∀ b ∈ x, b ≠ 0x3F) (hne : x ≠ []) :
    paqPath x = x := by
  have htake : x.takeWhile (fun b => b != 0x3F) = x :=
    takeWhile_all (fun b hb => by simp [hx b hb])
  rw [paqPath]
  simp only [htake]
  rw [if_neg (by simpa using hne)]

theorem exists_query_decomp {s : List Nat} (h : s.any (fun b => b == 0x3F) = true) :
    ∃ x y, s = x ++ 0x3F :: y ∧ ∀ b ∈ x, b ≠ 0x3F := by
  induction s with
  | nil => simp at h
  | cons b t ih =>
    by_cases hb : b = 0x3F
    · exact ⟨[], t, by simp [hb], by simp⟩
    · have ht : t.any (fun b => b == 0x3F) = true := by
        simp only [List.any_cons] at h
        rcases Bool.or_eq_true_iff.mp h with h' | h'
        · exact absurd (by simpa using h') hb
        · exact h'
      obtain ⟨x, y, hxy, hxf⟩ := ih ht
      refine ⟨b :: x, y, by simp [hxy], ?_⟩
      intro c hc
      rcases List.mem_cons.mp hc with rfl | hc
      · exact hb
      · exact hxf c hc

/-! ## Helper lemmas: PathAndQuery scanning -/

theorem paqScanQuery_cons (b : Nat) (rest : List Nat) :
    paqScanQuery (b :: rest) =
      if b = 0x23 then some []
      else if queryAllowed b then (paqScanQuery rest).map (fun t => b :: t)
      else none := rfl

theorem paqScanPath_cons (b : Nat) (rest : List Nat) :
    paqScanPath (b :: rest) =
      if b = 0x3F then (paqScanQuery rest).map (fun t => 0x3F :: t)
      else if b = 0x23 then some []
      else if pathAllowed b then (paqScanPath rest).map (fun t => b :: t)
      else none := rfl

theorem paqScanQuery_self_of {y : List Nat} (hy : ∀ b ∈ y, queryAllowed b = true) :
    paqScanQuery y = some y := by
  induction y with
  | nil => rfl
  | cons b t ih =>
    have hb := hy b (by simp)
    have h23 : b ≠ 0x23 := (queryAllowed_props hb).1
    rw [paqScanQuery_cons, if_neg h23, if_pos hb,
      ih (fun c hc => hy c (by simp [hc]))]
    rfl

theorem paqScanPath_append_query {x y : List Nat}
    (hx : ∀ b ∈ x, pathAllowed b = true) (hy : ∀ b ∈ y, queryAllowed b = true) :
    paqScanPath (x ++ 0x3F :: y) = some (x ++ 0x3F :: y) := by
  induction x with
  | nil =>
    rw [List.nil_append, paqScanPath_cons, if_pos rfl, paqScanQuery_self_of hy]
    rfl
  | cons b t ih =>
    have hb := hx b (by simp)
    obtain ⟨h3F, h23, -⟩ := pathAllowed_props hb
    rw [List.cons_append, paqScanPath_cons, if_neg h3F, if_neg h23, if_pos hb,
      ih (fun c hc => hx c (by simp [hc]))]
    rfl

theorem paqScanPath_self_of {x : List Nat} (hx : ∀ b ∈ x, pathAllowed b = true) :
    paqScanPath x = some x := by
  induction x with
  | nil => rfl
  | cons b t ih =>
    have hb := hx b (by simp)
    obtain ⟨h3F, h23, -⟩ := pathAllowed_props hb
    rw [paqScanPath_cons, if_neg h3F, if_neg h23, if_pos hb,
      ih (fun c hc => hx c (by simp [hc]))]
    rfl

theorem paqScanQuery_fix_inv {y : List Nat} (h : paqScanQuery y = some y) :
    ∀ b ∈ y, queryAllowed b = true := by
  induction y with
  | nil => simp
  | cons b t ih =>
    by_cases h23 : b = 0x23
    · rw [paqScanQuery_cons, if_pos h23] at h
      exact absurd (by injection h) (by simp)
    · by_cases hq : queryAllowed b
      · rw [paqScanQuery_cons, if_neg h23, if_pos hq, Option.map_eq_some'] at h
        obtain ⟨u, hu, hcons⟩ := h
        have hut : u = t := by injection hcons
        intro c hc
        rcases List.mem_cons.mp hc with rfl | hc
        · exact hq
        · exact ih (hut ▸ hu) c hc
      · rw [paqScanQuery_cons, if_neg h23, if_neg hq] at h
        exact absurd h (by simp)

theorem paqValid_parts {s : List Nat} (h : PaqValid s) :
    (∀ b ∈ s.takeWhile (fun b => b != 0x3F), pathAllowed b = true) ∧
    (∀ b ∈ (s.dropWhile (fun b => b != 0x3F)).tail, queryAllowed b = true) ∧
    (0x23 : Nat) ∉ s := by
  rw [PaqValid, paqParse] at h
  induction s with
  | nil => simp
  | cons b t ih =>
    by_cases h3F : b = 0x3F
    · subst h3F
      rw [paqScanPath_cons, if_pos rfl, Option.map_eq_some'] at h
      obtain ⟨u, hu, hcons⟩ := h
      have hut : u = t := by injection hcons
      have hq := paqScanQuery_fix_inv (hut ▸ hu)
      refine ⟨by simp [List.takeWhile_cons], ?_, ?_⟩
      · rw [List.dropWhile_cons, if_neg (by simp)]
        simpa using hq
      · intro hmem
        rcases List.mem_cons.mp hmem with h' | h'
        · exact absurd h'.symm (by norm_num)
        · exact absurd rfl (queryAllowed_props (hq _ h')).1
    · by_cases h23 : b = 0x23
      · rw [paqScanPath_cons, if_neg h3F, if_pos h23] at h
        exact absurd (by injection h) (by simp)
      · by_cases hp : pathAllowed b
        · rw [paqScanPath_cons, if_neg h3F, if_neg h23, if_pos hp,
            Option.map_eq_some'] at h
          obtain ⟨u, hu, hcons⟩ := h
          have hut : u = t := by injection hcons
          obtain ⟨ih1, ih2, ih3⟩ := ih (hut ▸ hu)
          refine ⟨?_, ?_, ?_⟩
          · intro c hc
            rw [List.takeWhile_cons, if_pos (by simp [h3F])] at hc
            rcases List.mem_cons.mp hc with rfl | hc
            · exact hp
            · exact ih1 c hc
          · intro c hc
            rw [List.dropWhile_cons, if_pos (by simp [h3F])] at hc
            exact ih2 c hc
          · intro hmem
            rcases List.mem_cons.mp hmem with h' | h'
            · exact h23 h'.symm
            · exact ih3 h'
        · rw [paqScanPath_cons, if_neg h3F, if_neg h23, if_neg hp] at h
          exact absurd h (by simp)

theorem paqValid_path_allowed {s : List Nat} (h : PaqValid s) :
    ∀ b ∈ paqPath s, pathAllowed b = true := by
  intro b hb
  rw [paqPath] at hb
  by_cases he : (s.takeWhile (fun b => b != 0x3F)).isEmpty = true
  · simp only [he, if_pos] at hb
    rcases List.mem_singleton.mp hb with rfl
    decide
  · simp only [he, if_neg, Bool.false_eq_true, not_false_eq_true, ite_false] at hb
    exact (paqValid_parts h).1 b hb

theorem paqValid_query_allowed {s : List Nat} (h : PaqValid s) :
    ∀ b ∈ (paqQuery s).getD [], queryAllowed b = true := by
  intro b hb
  rw [paqQuery] at hb
  by_cases ha : (s.any (fun b => b == 0x3F)) = true
  · rw [if_pos ha] at hb
    exact (paqValid_parts h).2.1 b hb
  · rw [if_neg ha] at hb
    simp at hb

theorem paqValid_no_hash {s : List Nat} (h : PaqValid s) : (0x23 : Nat) ∉ s :=
  (paqValid_parts h).2.2

theorem paqScanQuery_no_hash {y t : List Nat} (h : paqScanQuery y = some t)
    (hy : (0x23 : Nat) ∉ y) : t = y := by
  induction y generalizing t with
  | nil =>
    have : some ([] : List Nat) = some t := h
    exact (by injection this : ([] : List Nat) = t).symm
  | cons b r ih =>
    have h23 : b ≠ 0x23 := fun hb => hy (hb ▸ List.mem_cons_self b r)
    by_cases hq : queryAllowed b
    · rw [paqScanQuery_cons, if_neg h23, if_pos hq, Option.map_eq_some'] at h
      obtain ⟨u, hu, hcons⟩ := h
      have := ih hu (fun hm => hy (List.mem_cons_of_mem b hm))
      rw [← hcons, this]
    · rw [paqScanQuery_cons, if_neg h23, if_neg hq] at h
      exact absurd h (by simp)

theorem paqScanPath_no_hash {s t : List Nat} (h : paqScanPath s = some t)
    (hs : (0x23 : Nat) ∉ s) : t = s := by
  induction s generalizing t with
  | nil =>
    have : some ([] : List Nat) = some t := h
    exact (by injection this : ([] : List Nat) = t).symm
  | cons b r ih =>
    have h23 : b ≠ 0x23 := fun hb => hs (hb ▸ List.mem_cons_self b r)
    by_cases h3F : b = 0x3F
    · rw [paqScanPath_cons, if_pos h3F, Option.map_eq_some'] at h
      obtain ⟨u, hu, hcons⟩ := h
      have := paqScanQuery_no_hash hu (fun hm => hs (List.mem_cons_of_mem b hm))
      rw [← hcons, this, h3F]
    · by_cases hp : pathAllowed b
      · rw [paqScanPath_cons, if_neg h3F, if_neg h23, if_pos hp,
          Option.map_eq_some'] at h
        obtain ⟨u, hu, hcons⟩ := h
        have := ih hu (fun hm => hs (List.mem_cons_of_mem b hm))
        rw [← hcons, this]
      · rw [paqScanPath_cons, if_neg h3F, if_neg h23, if_neg hp] at h
        exact absurd h (by simp)

theorem paqParse_no_hash {s t : List Nat} (h : paqParse s = some t)
    (hs : (0x23 : Nat) ∉ s) : t = s :=
  paqScanPath_no_hash h hs

/-! ## Helper lemmas: Uri parts -/

theorem fromParts_components {p : UriParts} {u : Uri} (h : Uri.fromParts p = some u) :
    u.scheme = p.scheme ∧ u.authority = p.authority ∧ u.paqData = p.paq.getD [] := by
  unfold Uri.fromParts at h
  split_ifs at h
  all_goals
    first
      | exact Option.noConfusion h
      | (injection h with h'
         subst h'
         exact ⟨rfl, rfl, rfl⟩)

theorem fromParts_some_of {sch auth : Option (List Nat)} {d : List Nat}
    (h1 : sch.isSome = true → auth.isSome = true)
    (h2 : sch = none → auth = none) :
    Uri.fromParts ⟨sch, auth, some d⟩ = some ⟨sch, auth, d⟩ := by
  cases sch with
  | some s =>
    have ha : auth.isSome = true := h1 rfl
    obtain ⟨a, rfl⟩ := Option.isSome_iff_exists.mp ha
    rfl
  | none =>
    have ha : auth = none := h2 rfl
    subst ha
    rfl

theorem intoParts_paq_some {u : Uri} {d : List Nat} (h : u.intoParts.paq = some d) :
    u.paqData = d := by
  unfold Uri.intoParts at h
  dsimp only at h
  by_cases hp : u.hasPath = true
  · rw [if_pos hp] at h
    injection h
  · rw [if_neg hp] at h
    exact Option.noConfusion h

theorem intoParts_paq_none {u : Uri} (h : u.intoParts.paq = none) :
    u.paqData = [] ∧ u.scheme = none := by
  unfold Uri.intoParts at h
  dsimp only at h
  by_cases hp : u.hasPath = true
  · rw [if_pos hp] at h
    exact Option.noConfusion h
  · constructor
    · cases hd : u.paqData with
      | nil => rfl
      | cons a l =>
        exfalso
        apply hp
        unfold Uri.hasPath
        rw [hd]
        simp
    · cases hs : u.scheme with
      | none => rfl
      | some s =>
        exfalso
        apply hp
        unfold Uri.hasPath
        rw [hs]
        simp

theorem fromParts_intoParts_no_paq {u : Uri} (h : u.intoParts.paq = none) :
    Uri.fromParts u.intoParts = some u := by
  obtain ⟨hd, hs⟩ := intoParts_paq_none h
  cases u with
  | mk sch auth dat =>
    simp only at hd hs
    subst hd
    subst hs
    cases auth <;> rfl

/-! ## Helper lemmas: PathAndQuery display -/

theorem paqDisplay_cons (c : Nat) (t : List Nat) :
    paqDisplay (c :: t) =
      if c = 0x2F ∨ c = 0x2A then c :: t else 0x2F :: c :: t := rfl

theorem paqDisplay_mem {s : List Nat} {b : Nat} (h : b ∈ paqDisplay s) :
    b ∈ s ∨ b = 0x2F := by
  cases s with
  | nil => exact Or.inr (List.mem_singleton.mp h)
  | cons c t =>
    rw [paqDisplay_cons] at h
    split_ifs at h
    · exact Or.inl h
    · rcases List.mem_cons.mp h with rfl | h'
      · exact Or.inr rfl
      · exact Or.inl h'

theorem paqDisplay_decomp {x : List Nat} (y : List Nat) (hx : ∀ b ∈ x, b ≠ 0x3F) :
    ∃ x', paqDisplay (x ++ 0x3F :: y) = x' ++ 0x3F :: y ∧
      (∀ b ∈ x', b ≠ 0x3F) ∧ x' ≠ [] := by
  cases x with
  | nil =>
    refine ⟨[0x2F], ?_, by simp, by simp⟩
    rw [List.nil_append, paqDisplay_cons, if_neg (by norm_num)]
    rfl
  | cons c t =>
    by_cases hc : c = 0x2F ∨ c = 0x2A
    · refine ⟨c :: t, ?_, fun b hb => hx b hb, by simp⟩
      rw [List.cons_append, paqDisplay_cons, if_pos hc]
    · refine ⟨0x2F :: c :: t, ?_, ?_, by simp⟩
      · rw [List.cons_append, paqDisplay_cons, if_neg hc]
        rfl
      · intro b hb
        rcases List.mem_cons.mp hb with rfl | hb'
        · norm_num
        · exact hx b hb'

theorem path_query_of_concat {x : List Nat} (qopt : Option (List Nat))
    (hx : ∀ b ∈ x, b ≠ 0x3F) (hne : x ≠ []) :
    paqPath (x ++ (match qopt with | some y => 0x3F :: y | none => [])) = x ∧
    paqQuery (x ++ (match qopt with | some y => 0x3F :: y | none => [])) = qopt := by
  cases qopt with
  | some y => exact ⟨paqPath_append_sep y hx hne, paqQuery_append_sep y hx⟩
  | none =>
    rw [List.append_nil]
    exact ⟨paqPath_no_sep hx hne, paqQuery_no_sep hx⟩

theorem intoParts_scheme (u : Uri) : u.intoParts.scheme = u.scheme := rfl

theorem intoParts_authority (u : Uri) : u.intoParts.authority = u.authority := rfl

theorem paqParse_append_query {x y : List Nat}
    (hx : ∀ b ∈ x, pathAllowed b = true) (hy : ∀ b ∈ y, queryAllowed b = true) :
    paqParse (x ++ 0x3F :: y) = some (x ++ 0x3F :: y) :=
  paqScanPath_append_query hx hy

theorem paqParse_self_of {x : List Nat} (hx : ∀ b ∈ x, pathAllowed b = true) :
    paqParse x = some x :=
  paqScanPath_self_of hx

/-! ## Core computation of `replace_path` on a present path-and-query -/

theorem replace_path_some_core {uri : Uri} {d : List Nat} (p : List Nat)
    (hpaq : uri.intoParts.paq = some d) (hv : PaqValid d) (hwf : uri.WF)
    (hpa : ∀ b ∈ (if p.isEmpty then [0x2F] else p), pathAllowed b = true) :
    replace_path uri (some p) =
      (.ok (), ⟨uri.scheme, uri.authority,
        (if p.isEmpty then [0x2F] else p) ++
          (match paqQuery d with | some y => 0x3F :: y | none => [])⟩) := by
  have hschauth : uri.scheme = none → uri.authority = none := by
    intro hs
    rcases hwf.2 hs with h | h
    · exact h
    · exfalso
      have : uri.intoParts.paq = none := by
        unfold Uri.intoParts Uri.hasPath
        rw [if_neg (by simp [h, hs])]
      rw [this] at hpaq
      exact Option.noConfusion hpaq
  unfold replace_path
  dsimp only
  rw [hpaq]
  dsimp only
  cases hq : paqQuery d with
  | some y =>
    have hy : ∀ b ∈ y, queryAllowed b = true := by
      have := paqValid_query_allowed hv
      rw [hq] at this
      simpa using this
    dsimp only
    rw [paqParse_append_query hpa hy]
    dsimp only
    rw [intoParts_scheme, intoParts_authority, fromParts_some_of hwf.1 hschauth]
  | none =>
    dsimp only
    rw [paqParse_self_of hpa]
    dsimp only
    rw [intoParts_scheme, intoParts_authority, fromParts_some_of hwf.1 hschauth,
      List.append_nil]

/-- Claim C4 (amended): `replace_path(uri, None)` leaves every URI
unchanged; when the URI has a path-and-query component, `Some("")` is
normalised to path `/` with the original query kept, and `Some(p)` for a
non-empty `p` made of valid path bytes (in particular containing no `?` or
`#`) installs path `p` with the original query kept; a URI with no
path-and-query component is returned unchanged for every argument.  (For
`p` containing `#`, the code does not preserve the query: the new
path-and-query is silently truncated at the `#`.) -/
theorem replace_path_spec :
    (∀ (uri : Uri), replace_path uri none = (.ok (), uri)) ∧
    (∀ (uri : Uri) (d : List Nat), uri.intoParts.paq = some d → PaqValid d →
      uri.WF →
      (replace_path uri (some [])).1 = .ok () ∧
      paqPath ((replace_path uri (some [])).2).paqData = [0x2F] ∧
      paqQuery ((replace_path uri (some [])).2).paqData = paqQuery d) ∧
    (∀ (uri : Uri) (d p : List Nat), uri.intoParts.paq = some d → PaqValid d →
      uri.WF → p ≠ [] → (∀ b ∈ p, pathAllowed b = true) →
      (replace_path uri (some p)).1 = .ok () ∧
      paqPath ((replace_path uri (some p)).2).paqData = p ∧
      paqQuery ((replace_path uri (some p)).2).paqData = paqQuery d) ∧
    (∀ (uri : Uri) (arg : Option (List Nat)), uri.intoParts.paq = none →
      replace_path uri arg = (.ok (), uri)) := by
  refine ⟨fun uri => rfl, ?_, ?_, ?_⟩
  · intro uri d hpaq hv hwf
    have hpa : ∀ b ∈ (if ([] : List Nat).isEmpty then [0x2F] else []),
        pathAllowed b = true := by
      intro b hb
      simp only [List.isEmpty_nil, if_pos] at hb
      rcases List.mem_singleton.mp hb with rfl
      decide
    rw [replace_path_some_core [] hpaq hv hwf hpa]
    have h47 : ∀ b ∈ [(0x2F : Nat)], b ≠ 0x3F := by
      intro b hb
      rcases List.mem_singleton.mp hb with rfl
      norm_num
    obtain ⟨hp, hqq⟩ := path_query_of_concat (paqQuery d) h47 (by simp)
    exact ⟨rfl, by simpa using hp, by simpa using hqq⟩
  · intro uri d p hpaq hv hwf hpne hpa
    have hpe : p.isEmpty = false := by
      cases p
      · exact absurd rfl hpne
      · rfl
    have hpa' : ∀ b ∈ (if p.isEmpty then [0x2F] else p), pathAllowed b = true := by
      rw [hpe]
      simpa using hpa
    rw [replace_path_some_core p hpaq hv hwf hpa']
    have hpf : ∀ b ∈ p, b ≠ 0x3F := fun b hb => (pathAllowed_props (hpa b hb)).1
    obtain ⟨hp, hqq⟩ := path_query_of_concat (paqQuery d) hpf hpne
    refine ⟨rfl, ?_, ?_⟩
    · simpa [hpe] using hp
    · simpa [hpe] using hqq
  · intro uri arg hpaq
    cases arg with
    | none => rfl
    | some p =>
      unfold replace_path
      dsimp only
      rw [hpaq]
      dsimp only
      rw [fromParts_intoParts_no_paq hpaq]

/-- Counterexample for C4: replacing the path of `/x?q=1` by `/a#b`
succeeds but installs path-and-query `/a`: the installed path is not the
requested one and the original query string `q=1` is dropped, not
preserved. -/
theorem replace_path_hash_truncates :
    replace_path ⟨none, none, asciiBytes "/x?q=1"⟩ (some (asciiBytes "/a#b")) =
      (.ok (), ⟨none, none, asciiBytes "/a"⟩) ∧
    asciiBytes "/a" ≠ asciiBytes "/a#b" ∧
    paqQuery (asciiBytes "/a") = none ∧
    paqQuery (asciiBytes "/x?q=1") = some (asciiBytes "q=1") := by decide

/-- Witness for C4: on `/pull/1/lgtm?foo=bar`, replacing the path with
`""` gives `/` with query `foo=bar` kept, and with `/pull/2/lgtm` gives
that path with the query kept; an authority-form URI is unchanged. -/
theorem replace_path_spec_witness :
    ((replace_path ⟨none, none, asciiBytes "/pull/1/lgtm?foo=bar"⟩
        (some [])).1 = .ok () ∧
      paqPath ((replace_path ⟨none, none, asciiBytes "/pull/1/lgtm?foo=bar"⟩
        (some [])).2).paqData = [0x2F] ∧
      paqQuery ((replace_path ⟨none, none, asciiBytes "/pull/1/lgtm?foo=bar"⟩
        (some [])).2).paqData = paqQuery (asciiBytes "/pull/1/lgtm?foo=bar")) ∧
    ((replace_path ⟨none, none, asciiBytes "/pull/1/lgtm?foo=bar"⟩
        (some (asciiBytes "/pull/2/lgtm"))).1 = .ok () ∧
      paqPath ((replace_path ⟨none, none, asciiBytes "/pull/1/lgtm?foo=bar"⟩
        (some (asciiBytes "/pull/2/lgtm"))).2).paqData = asciiBytes "/pull/2/lgtm" ∧
      paqQuery ((replace_path ⟨none, none, asciiBytes "/pull/1/lgtm?foo=bar"⟩
        (some (asciiBytes "/pull/2/lgtm"))).2).paqData =
          paqQuery (asciiBytes "/pull/1/lgtm?foo=bar")) ∧
    replace_path ⟨none, some (asciiBytes "example.com"), []⟩
        (some (asciiBytes "/x")) =
      (.ok (), ⟨none, some (asciiBytes "example.com"), []⟩) :=
  ⟨replace_path_spec.2.1 _ (asciiBytes "/pull/1/lgtm?foo=bar") (by decide)
      (by decide) (by decide),
   replace_path_spec.2.2.1 _ (asciiBytes "/pull/1/lgtm?foo=bar") _ (by decide)
      (by decide) (by decide) (by decide) (by decide),
   replace_path_spec.2.2.2 _ _ (by decide)⟩

/-- Claim C1: with `abort = true`, `apply_request_action` and
`apply_response_action` return the Abort failure immediately, whatever the
other fields hold: no append, replace or delay step is evaluated, no
mutated object is returned, and no delay is recorded. -/
theorem abort_short_circuits :
    (∀ (request : Request) (actions : Actions), actions.abort = true →
      apply_request_action request actions = .error .abortApplied) ∧
    (∀ (response : Response) (actions : Actions), actions.abort = true →
      apply_response_action response actions = .error .abortApplied) := by
  constructor
  · intro request actions h
    simp [apply_request_action, h]
  · intro response actions h
    simp [apply_response_action, h]

/-- Witness for C1: a fully populated `Actions` with `abort = true` aborts
both a concrete request and a concrete response. -/
theorem abort_short_circuits_witness :
    apply_request_action
        ⟨⟨none, none, asciiBytes "/lgtm"⟩, asciiBytes "GET", [], []⟩
        ⟨true, some 5,
          some ⟨some (asciiBytes "foo=bar"), some [(asciiBytes "x", asciiBytes "y")]⟩,
          some ⟨some (asciiBytes "/p"), some (asciiBytes "POST"), some [1, 2],
                some 500, some [(asciiBytes "a", asciiBytes "b")],
                some [(asciiBytes "c", asciiBytes "d")]⟩⟩ = .error .abortApplied ∧
    apply_response_action
        ⟨200, [], []⟩
        ⟨true, some 5, none, some ⟨none, none, some [3], some 500, none, none⟩⟩ =
      .error .abortApplied :=
  ⟨abort_short_circuits.1 _ _ rfl, abort_short_circuits.2 _ _ rfl⟩

/-- Claim C5: the fully-absent selector matches every request and every
response. -/
theorem empty_selector_matches_everything :
    (∀ (port : Nat) (request : Request),
      select_request port request ⟨none, none, none, none, none, none⟩ = true) ∧
    (∀ (port : Nat) (uri : Uri) (method : List Nat)
        (request_headers : List (List Nat × List Nat)) (response : Response),
      select_response port uri method request_headers response
        ⟨none, none, none, none, none, none⟩ = true) :=
  ⟨fun _ _ => rfl, fun _ _ _ _ _ => rfl⟩

/-- Claim C6: with only the `path` field present, `select_request` holds
exactly when the request URI's path component (query string stripped by
`Uri::path`) starts with the selector value's path component (query string
stripped by `PathAndQuery::path`). -/
theorem select_request_path_is_prefix_match :
    ∀ (port : Nat) (request : Request) (P : List Nat),
      select_request port request ⟨none, some P, none, none, none, none⟩ = true ↔
        List.isPrefixOf (paqPath P) request.uri.path = true := by
  intro port request P
  simp [select_request]

/-- Claim C7: with only the `headers` field present, `select_request` holds
exactly when, for every selector entry `(name, value)`, some occurrence of
`name` on the request carries exactly `value`; in particular a request with
`x: a` and `x: b` matches a selector requiring `x: b` and fails one
requiring `x: c`. -/
theorem select_request_headers_existential_match :
    (∀ (port : Nat) (request : Request) (hs : List (List Nat × List Nat)),
      select_request port request ⟨none, none, none, some hs, none, none⟩ = true ↔
        ∀ kv ∈ hs, kv.2 ∈ get_all request.headers kv.1) ∧
    (select_request 80
        ⟨⟨none, none, asciiBytes "/"⟩, asciiBytes "GET",
          [(asciiBytes "x", asciiBytes "a"), (asciiBytes "x", asciiBytes "b")], []⟩
        ⟨none, none, none, some [(asciiBytes "x", asciiBytes "b")], none, none⟩ = true ∧
     select_request 80
        ⟨⟨none, none, asciiBytes "/"⟩, asciiBytes "GET",
          [(asciiBytes "x", asciiBytes "a"), (asciiBytes "x", asciiBytes "b")], []⟩
        ⟨none, none, none, some [(asciiBytes "x", asciiBytes "c")], none, none⟩ = false) := by
  constructor
  · intro port request hs
    simp [select_request, List.any_eq_true, List.all_eq_true]
  · exact ⟨by decide, by decide⟩

/-- Claim C10: `select_request` never consults the response-only selector
fields: clearing `code` and `response_headers` does not change its
verdict on any request. -/
theorem select_request_ignores_response_fields :
    ∀ (port : Nat) (request : Request) (selector : Selector),
      select_request port request selector =
        select_request port request
          { selector with code := none, response_headers := none } :=
  fun _ _ _ => rfl

/-! ## Helper lemmas: splitting on a separator byte -/

theorem splitOnByte_cons (sep b : Nat) (rest : List Nat) :
    splitOnByte sep (b :: rest) =
      if b = sep then [] :: splitOnByte sep rest
      else
        match splitOnByte sep rest with
        | [] => [[b]]
        | p :: ps => (b :: p) :: ps := rfl

theorem splitOnByte_ne_nil (sep : Nat) (s : List Nat) : splitOnByte sep s ≠ [] := by
  cases s with
  | nil => simp [splitOnByte]
  | cons b rest =>
    rw [splitOnByte_cons]
    by_cases hb : b = sep
    · rw [if_pos hb]; simp
    · rw [if_neg hb]
      rcases splitOnByte sep rest with _ | ⟨p, ps⟩ <;> simp

theorem splitOnByte_append_sep (sep : Nat) (a b : List Nat) :
    splitOnByte sep (a ++ sep :: b) = splitOnByte sep a ++ splitOnByte sep b := by
  induction a with
  | nil =>
    rw [List.nil_append, splitOnByte_cons, if_pos rfl]
    rfl
  | cons x xs ih =>
    rw [List.cons_append, splitOnByte_cons, splitOnByte_cons sep x xs]
    by_cases hx : x = sep
    · rw [if_pos hx, if_pos hx, ih]
      rfl
    · rw [if_neg hx, if_neg hx, ih]
      rcases hsp : splitOnByte sep xs with _ | ⟨p, ps⟩
      · exact absurd hsp (splitOnByte_ne_nil sep xs)
      · rfl

theorem splitOnByte_no_sep {sep : Nat} {a : List Nat} (h : ∀ x ∈ a, x ≠ sep) :
    splitOnByte sep a = [a] := by
  induction a with
  | nil => rfl
  | cons x xs ih =>
    rw [splitOnByte_cons, if_neg (h x (by simp)),
      ih (fun y hy => h y (by simp [hy]))]

theorem urldecodePairs_append_sep (a b : List Nat) :
    urldecodePairs (a ++ 0x26 :: b) = urldecodePairs a ++ urldecodePairs b := by
  unfold urldecodePairs
  rw [splitOnByte_append_sep, List.filter_append, List.map_append]

/-! ## Core computation of `append_queries` on success -/

theorem append_queries_ok_data {uri : Uri} {q : List Nat} (hq : q ≠ [])
    (hhash : (0x23 : Nat) ∉ q) (hv : PaqValid uri.paqData)
    (hok : (append_queries uri (some q)).1 = .ok ()) :
    ((append_queries uri (some q)).2).paqData =
      (match uri.intoParts.paq with
       | some old =>
         paqDisplay old ++ (if (paqQuery old).isSome then (0x26 : Nat) else 0x3F) :: q
       | none => 0x2F :: 0x3F :: q) := by
  have hqe : q.isEmpty = false := by
    cases q
    · exact absurd rfl hq
    · rfl
  unfold append_queries at hok ⊢
  dsimp only [Option.getD] at hok ⊢
  rw [hqe] at hok ⊢
  rcases hpaq : uri.intoParts.paq with _ | old
  all_goals rw [hpaq] at hok
  all_goals simp only [Bool.false_eq_true, if_false] at hok ⊢
  · -- no path-and-query: incoming is /?q
    have hinc : (0x23 : Nat) ∉ (0x2F :: 0x3F :: q) := by
      intro hmem
      rcases List.mem_cons.mp hmem with h' | h'
      · exact absurd h' (by norm_num)
      · rcases List.mem_cons.mp h' with h'' | h''
        · exact absurd h'' (by norm_num)
        · exact hhash h''
    rcases hp : paqParse (0x2F :: 0x3F :: q) with _ | d
    · rw [hp] at hok
      simp at hok
    · have hd : d = 0x2F :: 0x3F :: q := paqParse_no_hash hp hinc
      rw [hp] at hok
      dsimp only at hok ⊢
      rcases hf : Uri.fromParts ⟨uri.intoParts.scheme, uri.intoParts.authority,
          some d⟩ with _ | u
      · rw [hf] at hok
        simp at hok
      · dsimp only
        rw [(fromParts_components hf).2.2]
        simpa using hd
  · -- present path-and-query `old`
    have hold : uri.paqData = old := intoParts_paq_some hpaq
    have holdh : (0x23 : Nat) ∉ old := hold ▸ paqValid_no_hash hv
    have hinc : (0x23 : Nat) ∉
        (if (paqQuery old).isSome = true then paqDisplay old ++ 38 :: q
         else paqDisplay old ++ 63 :: q) := by
      intro hmem
      have hmem' : (0x23 : Nat) ∈ paqDisplay old ++ 38 :: q ∨
          (0x23 : Nat) ∈ paqDisplay old ++ 63 :: q := by
        by_cases hqs : (paqQuery old).isSome = true
        · rw [if_pos hqs] at hmem
          exact Or.inl hmem
        · rw [if_neg hqs] at hmem
          exact Or.inr hmem
      rcases hmem' with h' | h' <;>
      · rcases List.mem_append.mp h' with h'' | h''
        · rcases paqDisplay_mem h'' with h3 | h3
          · exact holdh h3
          · exact absurd h3 (by norm_num)
        · rcases List.mem_cons.mp h'' with h3 | h3
          · exact absurd h3 (by norm_num)
          · exact hhash h3
    rcases hp : paqParse
        (if (paqQuery old).isSome = true then paqDisplay old ++ 38 :: q
         else paqDisplay old ++ 63 :: q) with _ | d
    · rw [hp] at hok
      simp at hok
    · have hd := paqParse_no_hash hp hinc
      rw [hp] at hok
      dsimp only at hok ⊢
      rcases hf : Uri.fromParts ⟨uri.intoParts.scheme, uri.intoParts.authority,
          some d⟩ with _ | u
      · rw [hf] at hok
        simp at hok
      · dsimp only
        rw [(fromParts_components hf).2.2]
        dsimp only [Option.getD]
        rw [hd]
        by_cases hqs : (paqQuery old).isSome = true
        · rw [if_pos hqs, if_pos hqs]
        · rw [if_neg hqs, if_neg hqs]

/-- Claim C3 (amended): `append_queries(uri, None)` and
`append_queries(uri, Some(""))` return the URI unchanged; for every
non-empty fragment `q` containing no `#`, when the call succeeds the
result's path-and-query data is the displayed old path-and-query
concatenated with `&q` when a query exists, `?q` when none exists, and is
`/?q` when the URI has no path-and-query component; the decoded pair list
of the result's query is the original query's pair list followed by `q`'s,
so existing pairs are never removed or reordered and duplicate keys
accumulate.  (A `#` in `q` would be treated as a fragment start: the call
still succeeds but the appended text is silently truncated at the `#`.) -/
theorem append_queries_spec :
    (∀ (uri : Uri), append_queries uri none = (.ok (), uri)) ∧
    (∀ (uri : Uri), append_queries uri (some []) = (.ok (), uri)) ∧
    (∀ (uri : Uri) (q : List Nat), q ≠ [] → (0x23 : Nat) ∉ q →
      PaqValid uri.paqData → (append_queries uri (some q)).1 = .ok () →
      ((append_queries uri (some q)).2).paqData =
        (match uri.intoParts.paq with
         | some old =>
           paqDisplay old ++ (if (paqQuery old).isSome then (0x26 : Nat) else 0x3F) :: q
         | none => 0x2F :: 0x3F :: q)) ∧
    (∀ (uri : Uri) (q : List Nat), q ≠ [] → (0x23 : Nat) ∉ q →
      PaqValid uri.paqData → (append_queries uri (some q)).1 = .ok () →
      urldecodePairs ((paqQuery ((append_queries uri (some q)).2).paqData).getD []) =
        urldecodePairs ((uri.query).getD []) ++ urldecodePairs q) := by
  refine ⟨fun uri => rfl, fun uri => rfl,
    fun uri q hq hhash hv hok => append_queries_ok_data hq hhash hv hok, ?_⟩
  intro uri q hq hhash hv hok
  rw [append_queries_ok_data hq hhash hv hok]
  rcases hpaq : uri.intoParts.paq with _ | old
  · -- no path-and-query: result is /?q and the old query is empty
    dsimp only
    have h2F : ∀ b ∈ [(0x2F : Nat)], b ≠ 0x3F := by
      intro b hb
      rcases List.mem_singleton.mp hb with rfl
      norm_num
    have : paqQuery (0x2F :: 0x3F :: q) = some q := paqQuery_append_sep q h2F
    rw [this]
    have hdata : uri.paqData = [] := (intoParts_paq_none hpaq).1
    rw [Uri.query, hdata, paqQuery_no_sep (by simp)]
    rfl
  · have hold : uri.paqData = old := intoParts_paq_some hpaq
    dsimp only
    by_cases hqs : (paqQuery old).isSome = true
    swap
    · -- no old query: separator is ?, old display is ?-free
      have hqy : paqQuery old = none := by
        rcases h' : paqQuery old with _ | y
        · rfl
        · exact absurd (by rw [h']; rfl) hqs
      rw [if_neg hqs]
      have holdq : ∀ b ∈ old, b ≠ 0x3F := by
        intro b hb hb3F
        have : paqQuery old ≠ none := by
          rw [paqQuery, if_pos (List.any_eq_true.mpr ⟨b, hb, by simp [hb3F]⟩)]
          simp
        exact this hqy
      have hdisp : ∀ b ∈ paqDisplay old, b ≠ 0x3F := by
        intro b hb
        rcases paqDisplay_mem hb with h' | h'
        · exact holdq b h'
        · omega
      rw [paqQuery_append_sep q hdisp, Uri.query, hold, hqy]
      rfl
    · -- old query y: the query becomes y & q
      obtain ⟨y, hqy⟩ := Option.isSome_iff_exists.mp hqs
      rw [if_pos hqs]
      have hany : old.any (fun b => b == 0x3F) = true := by
        by_contra hno
        rw [paqQuery, if_neg hno] at hqy
        exact Option.noConfusion hqy
      obtain ⟨x, y', hxy, hxf⟩ := exists_query_decomp hany
      have hy' : y' = y := by
        have := paqQuery_append_sep y' hxf
        rw [← hxy, hqy] at this
        injection this with h'
        exact h'.symm
      subst hy'
      subst hxy
      obtain ⟨x', hx', hx'f, hx'ne⟩ := paqDisplay_decomp y' hxf
      rw [hx', List.append_assoc, List.cons_append]
      rw [paqQuery_append_sep (y' ++ 0x26 :: q) hx'f]
      rw [Uri.query, hold, paqQuery_append_sep y' hxf]
      dsimp only [Option.getD]
      rw [urldecodePairs_append_sep]

/-- Counterexample for C3: appending the fragment `a#b` to `/x` succeeds
but produces path-and-query `/x?a`, not the old path-and-query followed by
`?` and the fragment: the `#` and everything after it is dropped. -/
theorem append_queries_hash_truncates :
    append_queries ⟨none, none, asciiBytes "/x"⟩ (some (asciiBytes "a#b")) =
      (.ok (), ⟨none, none, asciiBytes "/x?a"⟩) ∧
    asciiBytes "/x?a" ≠ asciiBytes "/x" ++ 0x3F :: asciiBytes "a#b" := by decide

/-- Witness for C3: appending `foo=bar` to `/lgtm?os=linux` yields
`/lgtm?os=linux&foo=bar`, with the decoded old pair preserved in front. -/
theorem append_queries_spec_witness :
    ((append_queries ⟨none, none, asciiBytes "/lgtm?os=linux"⟩
        (some (asciiBytes "foo=bar"))).2).paqData =
      asciiBytes "/lgtm?os=linux&foo=bar" ∧
    urldecodePairs ((paqQuery ((append_queries ⟨none, none, asciiBytes "/lgtm?os=linux"⟩
        (some (asciiBytes "foo=bar"))).2).paqData).getD []) =
      urldecodePairs ((Uri.query ⟨none, none, asciiBytes "/lgtm?os=linux"⟩).getD []) ++
        urldecodePairs (asciiBytes "foo=bar") :=
  ⟨(append_queries_spec.2.2.1 ⟨none, none, asciiBytes "/lgtm?os=linux"⟩
      (asciiBytes "foo=bar") (by decide) (by decide) (by decide) (by decide)).trans
    (by decide),
   append_queries_spec.2.2.2 ⟨none, none, asciiBytes "/lgtm?os=linux"⟩
      (asciiBytes "foo=bar") (by decide) (by decide) (by decide) (by decide)⟩

/-! ## Helper lemmas: percent codec -/

theorem hexVal_hexUpper {n : Nat} (h : n < 16) : hexVal (hexUpper n) = some n := by
  rw [hexVal, hexUpper]
  by_cases h10 : n < 10
  · rw [if_pos h10, if_pos (by omega)]
    exact congrArg some (by omega)
  · rw [if_neg h10, if_neg (by omega), if_pos (by omega)]
    exact congrArg some (by omega)

theorem hexVal_lt {b x : Nat} (h : hexVal b = some x) : x < 16 := by
  rw [hexVal] at h
  split_ifs at h <;> (injection h with h'; omega)

theorem hexUpper_range {n : Nat} (h : n < 16) :
    (0x30 ≤ hexUpper n ∧ hexUpper n ≤ 0x39) ∨ (0x41 ≤ hexUpper n ∧ hexUpper n ≤ 0x46) := by
  rw [hexUpper]
  by_cases h10 : n < 10
  · rw [if_pos h10]; omega
  · rw [if_neg h10]; omega

theorem percentDecode_cons3 (b h1 h2 : Nat) (rest : List Nat) :
    percentDecode (b :: h1 :: h2 :: rest) =
      if b = 0x25 then
        match hexVal h1, hexVal h2 with
        | some x, some y => (x * 16 + y) :: percentDecode rest
        | _, _ => b :: percentDecode (h1 :: h2 :: rest)
      else b :: percentDecode (h1 :: h2 :: rest) := rfl

theorem percentDecode_cons_ne {b : Nat} (t : List Nat) (hb : b ≠ 0x25) :
    percentDecode (b :: t) = b :: percentDecode t := by
  cases t with
  | nil => rfl
  | cons c t' =>
    cases t' with
    | nil => rfl
    | cons d t'' => rw [percentDecode_cons3, if_neg hb]

theorem percentDecode_hex {x y : Nat} (t : List Nat) (hx : x < 16) (hy : y < 16) :
    percentDecode (0x25 :: hexUpper x :: hexUpper y :: t) =
      (x * 16 + y) :: percentDecode t := by
  rw [percentDecode_cons3, if_pos rfl, hexVal_hexUpper hx, hexVal_hexUpper hy]

theorem percentDecode_lt256 : ∀ (s : List Nat), (∀ b ∈ s, b < 256) →
    ∀ b ∈ percentDecode s, b < 256 := by
  intro s
  induction s using percentDecode.induct with
  | case1 h1 h2 rest x y hv2 hv1 ih =>
    intro hs c hc
    rw [percentDecode_cons3, if_pos rfl, hv1, hv2] at hc
    rcases List.mem_cons.mp hc with rfl | hc'
    · have hx16 := hexVal_lt hv1
      have hy16 := hexVal_lt hv2
      omega
    · exact ih (fun b hb => hs b (by simp [hb])) c hc'
  | case2 h1 h2 rest hno ih =>
    intro hs c hc
    rw [percentDecode_cons3, if_pos rfl] at hc
    have htail : c = 0x25 ∨ c ∈ percentDecode (h1 :: h2 :: rest) := by
      rcases hv1 : hexVal h1 with _ | x <;> rcases hv2 : hexVal h2 with _ | y <;>
        rw [hv1, hv2] at hc
      · exact List.mem_cons.mp hc
      · exact List.mem_cons.mp hc
      · exact List.mem_cons.mp hc
      · exact absurd (hno x y hv1 hv2) (fun h => h)
    rcases htail with rfl | hc'
    · omega
    · exact ih (fun b hb => hs b (by simp [hb])) c hc'
  | case3 b h1 h2 rest hb ih =>
    intro hs c hc
    rw [percentDecode_cons3, if_neg hb] at hc
    rcases List.mem_cons.mp hc with rfl | hc'
    · exact hs c (by simp)
    · exact ih (fun x hx => hs x (by simp [hx])) c hc'
  | case4 b c =>
    intro hs x hx
    rw [show percentDecode [b, c] = [b, c] from rfl] at hx
    exact hs x hx
  | case5 b =>
    intro hs x hx
    rw [show percentDecode [b] = [b] from rfl] at hx
    exact hs x hx
  | case6 =>
    intro hs x hx
    rw [show percentDecode [] = [] from rfl] at hx
    exact absurd hx (by simp)

theorem unchanged_props {b : Nat} (h : byteSerializedUnchanged b = true) :
    b ≠ 0x2B ∧ b ≠ 0x25 ∧ queryAllowed b = true ∧ b ≠ 0x26 ∧ b ≠ 0x3D := by
  rw [byteSerializedUnchanged, decide_eq_true_eq] at h
  refine ⟨?_, ?_, ?_, ?_, ?_⟩ <;> [skip; skip;
    (rw [queryAllowed, decide_eq_true_eq]); skip; skip] <;>
    rcases h with h | h | h | h | h | h | h <;> omega

theorem hexUpper_props {n : Nat} (h : n < 16) :
    hexUpper n ≠ 0x2B ∧ hexUpper n ≠ 0x25 ∧ queryAllowed (hexUpper n) = true ∧
    hexUpper n ≠ 0x26 ∧ hexUpper n ≠ 0x3D := by
  rcases hexUpper_range h with h' | h' <;>
    exact ⟨by omega, by omega, by rw [queryAllowed, decide_eq_true_eq]; omega,
      by omega, by omega⟩

theorem encodePart_props {s : List Nat} (hs : ∀ b ∈ s, b < 256) :
    ∀ c ∈ encodePart s, queryAllowed c = true ∧ c ≠ 0x26 ∧ c ≠ 0x3D := by
  induction s with
  | nil => simp [encodePart]
  | cons b t ih =>
    intro c hc
    rw [encodePart] at hc
    rcases List.mem_append.mp hc with hc' | hc'
    · rw [encodeByte] at hc'
      by_cases hu : byteSerializedUnchanged b = true
      · rw [if_pos hu] at hc'
        rcases List.mem_singleton.mp hc' with rfl
        obtain ⟨-, -, hq, h26, h3D⟩ := unchanged_props hu
        exact ⟨hq, h26, h3D⟩
      · rw [if_neg hu] at hc'
        by_cases h20 : b = 0x20
        · rw [if_pos h20] at hc'
          rcases List.mem_singleton.mp hc' with rfl
          exact ⟨by rw [queryAllowed, decide_eq_true_eq]; omega, by omega, by omega⟩
        · rw [if_neg h20] at hc'
          have hb : b < 256 := hs b (by simp)
          have hdiv : b / 16 < 16 := by omega
          have hmod : b % 16 < 16 := by omega
          rcases List.mem_cons.mp hc' with rfl | hc''
          · exact ⟨by rw [queryAllowed, decide_eq_true_eq]; omega, by omega, by omega⟩
          · rcases List.mem_cons.mp hc'' with rfl | hc3
            · obtain ⟨-, -, hq, h26, h3D⟩ := hexUpper_props hdiv
              exact ⟨hq, h26, h3D⟩
            · rcases List.mem_singleton.mp hc3 with rfl
              obtain ⟨-, -, hq, h26, h3D⟩ := hexUpper_props hmod
              exact ⟨hq, h26, h3D⟩
    · exact ih (fun x hx => hs x (by simp [hx])) c hc'

theorem percentDecode_map_encodePart {s : List Nat} (hs : ∀ b ∈ s, b < 256) :
    percentDecode ((encodePart s).map plusToSpace) = s := by
  induction s with
  | nil => rfl
  | cons b t ih =>
    have hb : b < 256 := hs b (by simp)
    have iht := ih (fun x hx => hs x (by simp [hx]))
    rw [encodePart, List.map_append, encodeByte]
    by_cases hu : byteSerializedUnchanged b = true
    · obtain ⟨h2B, h25, -, -, -⟩ := unchanged_props hu
      rw [if_pos hu]
      show percentDecode (plusToSpace b :: (encodePart t).map plusToSpace) = b :: t
      rw [show plusToSpace b = b from by rw [plusToSpace, if_neg h2B],
        percentDecode_cons_ne _ h25, iht]
    · rw [if_neg hu]
      by_cases h20 : b = 0x20
      · rw [if_pos h20]
        show percentDecode (plusToSpace 0x2B :: (encodePart t).map plusToSpace) =
          b :: t
        rw [show plusToSpace 0x2B = 0x20 from rfl,
          percentDecode_cons_ne _ (by norm_num), iht, h20]
      · rw [if_neg h20]
        have hdiv : b / 16 < 16 := by omega
        have hmod : b % 16 < 16 := by omega
        obtain ⟨hB1, -, -, -, -⟩ := hexUpper_props hdiv
        obtain ⟨hB2, -, -, -, -⟩ := hexUpper_props hmod
        show percentDecode (plusToSpace 0x25 :: plusToSpace (hexUpper (b / 16)) ::
          plusToSpace (hexUpper (b % 16)) :: (encodePart t).map plusToSpace) = b :: t
        rw [show plusToSpace 0x25 = 0x25 from rfl,
          show plusToSpace (hexUpper (b / 16)) = hexUpper (b / 16) from by
            rw [plusToSpace, if_neg hB1],
          show plusToSpace (hexUpper (b % 16)) = hexUpper (b % 16) from by
            rw [plusToSpace, if_neg hB2],
          percentDecode_hex _ hdiv hmod, iht]
        congr 1
        omega

theorem decodePart_encodePart {s : List Nat} (hs : ∀ b ∈ s, b < 256) :
    decodePart (encodePart s) = utf8Lossy s := by
  rw [decodePart, percentDecode_map_encodePart hs]

/-! ## Helper lemmas: association-list maps -/

theorem mapLookup_cons (kv : List Nat × List Nat) (m : List (List Nat × List Nat))
    (k' : List Nat) :
    mapLookup (kv :: m) k' = if kv.1 = k' then some kv.2 else mapLookup m k' := by
  by_cases h : kv.1 = k'
  · rw [mapLookup, List.find?_cons_of_pos _ (by simp [h]), Option.map_some', if_pos h]
  · rw [mapLookup, List.find?_cons_of_neg _ (by simp [h]), if_neg h]
    rfl

theorem lookup_none_of_not_mem_keys {m : List (List Nat × List Nat)} {k : List Nat}
    (h : k ∉ m.map (fun kv => kv.1)) : mapLookup m k = none := by
  rw [mapLookup, List.find?_eq_none.mpr, Option.map_none']
  intro kv hkv
  simp only [beq_iff_eq]
  intro hk
  exact h (List.mem_map.mpr ⟨kv, hkv, hk⟩)

theorem mapLookup_nil (k : List Nat) : mapLookup [] k = none := rfl

theorem mapInsert_nil (k v : List Nat) : mapInsert [] k v = [(k, v)] := rfl

theorem mapInsert_cons (kv : List Nat × List Nat) (m : List (List Nat × List Nat))
    (k v : List Nat) :
    mapInsert (kv :: m) k v =
      if kv.1 == k then (k, v) :: m else kv :: mapInsert m k v := rfl

theorem mapLookup_insert (m : List (List Nat × List Nat)) (k v k' : List Nat) :
    mapLookup (mapInsert m k v) k' = if k' = k then some v else mapLookup m k' := by
  induction m with
  | nil =>
    rw [mapInsert_nil, mapLookup_cons]
    by_cases h : k' = k
    · rw [if_pos h, if_pos (show (k, v).1 = k' from h.symm)]
    · rw [if_neg h, if_neg (fun hh : (k, v).1 = k' => h hh.symm)]
  | cons kv m ih =>
    rw [mapInsert_cons]
    by_cases hbk : kv.1 = k
    · rw [if_pos (beq_iff_eq.mpr hbk), mapLookup_cons, mapLookup_cons]
      by_cases h : k' = k
      · rw [if_pos h, if_pos (show (k, v).1 = k' from h.symm)]
      · rw [if_neg h, if_neg (fun hh : (k, v).1 = k' => h hh.symm),
          if_neg (fun hh : kv.1 = k' => h (hbk.symm.trans hh).symm)]
    · rw [if_neg (by simpa using hbk), mapLookup_cons, mapLookup_cons, ih]
      by_cases h1 : kv.1 = k' <;> by_cases h2 : k' = k
      · exact absurd (h1.trans h2) hbk
      · rw [if_pos h1, if_neg h2, if_pos h1]
      · rw [if_neg h1, if_pos h2, if_pos h2]
      · rw [if_neg h1, if_neg h2, if_neg h2, if_neg h1]

theorem mapInsert_mem {m : List (List Nat × List Nat)} {k v : List Nat} :
    ∀ kv' ∈ mapInsert m k v, kv' ∈ m ∨ kv' = (k, v) := by
  induction m with
  | nil =>
    intro kv' h
    exact Or.inr (List.mem_singleton.mp h)
  | cons kv m ih =>
    intro kv' h
    rw [mapInsert_cons] at h
    by_cases hbk : kv.1 = k
    · rw [if_pos (beq_iff_eq.mpr hbk)] at h
      rcases List.mem_cons.mp h with rfl | h'
      · exact Or.inr rfl
      · exact Or.inl (List.mem_cons_of_mem kv h')
    · rw [if_neg (by simpa using hbk)] at h
      rcases List.mem_cons.mp h with rfl | h'
      · exact Or.inl (by simp)
      · rcases ih kv' h' with h'' | h''
        · exact Or.inl (List.mem_cons_of_mem kv h'')
        · exact Or.inr h''

theorem mapInsert_keys_subset {m : List (List Nat × List Nat)} {k v : List Nat} :
    ∀ x ∈ (mapInsert m k v).map (fun kv => kv.1),
      x ∈ m.map (fun kv => kv.1) ∨ x = k := by
  intro x hx
  obtain ⟨kv', hkv', hx'⟩ := List.mem_map.mp hx
  rcases mapInsert_mem kv' hkv' with h | h
  · exact Or.inl (List.mem_map.mpr ⟨kv', h, hx'⟩)
  · subst h
    exact Or.inr hx'.symm

theorem noDupKeys_insert {m : List (List Nat × List Nat)} {k v : List Nat}
    (h : NoDupKeys m) : NoDupKeys (mapInsert m k v) := by
  induction m with
  | nil => simp [NoDupKeys, mapInsert_nil]
  | cons kv m ih =>
    rw [NoDupKeys, List.map_cons, List.nodup_cons] at h
    rw [NoDupKeys, mapInsert_cons]
    by_cases hbk : kv.1 = k
    · rw [if_pos (beq_iff_eq.mpr hbk), List.map_cons, List.nodup_cons]
      exact ⟨by rw [← hbk]; exact h.1, h.2⟩
    · rw [if_neg (by simpa using hbk), List.map_cons, List.nodup_cons]
      refine ⟨?_, ih h.2⟩
      intro hmem
      rcases mapInsert_keys_subset _ hmem with h' | h'
      · exact h.1 h'
      · exact hbk h'

theorem mapExtend_cons (base : List (List Nat × List Nat))
    (kv : List Nat × List Nat) (qs : List (List Nat × List Nat)) :
    mapExtend base (kv :: qs) = mapExtend (mapInsert base kv.1 kv.2) qs := rfl

theorem mapExtend_lookup {qs : List (List Nat × List Nat)} (hq : NoDupKeys qs)
    (base : List (List Nat × List Nat)) (k : List Nat) :
    mapLookup (mapExtend base qs) k =
      match mapLookup qs k with
      | some v => some v
      | none => mapLookup base k := by
  induction qs generalizing base with
  | nil => rfl
  | cons kv qs' ih =>
    have hq' : (qs'.map (fun x => x.1)).Nodup ∧ kv.1 ∉ qs'.map (fun x => x.1) := by
      have := hq
      rw [NoDupKeys, List.map_cons, List.nodup_cons] at this
      exact ⟨this.2, this.1⟩
    rw [mapExtend_cons, ih hq'.1, mapLookup_cons]
    by_cases hk : kv.1 = k
    · rw [if_pos hk]
      have : mapLookup qs' k = none := by
        apply lookup_none_of_not_mem_keys
        rw [← hk]
        exact hq'.2
      rw [this, mapLookup_insert, if_pos hk.symm]
    · rw [if_neg hk, mapLookup_insert, if_neg (fun hh : k = kv.1 => hk hh.symm)]

theorem mapExtend_lookup_last (ps : List (List Nat × List Nat)) (k : List Nat) :
    mapLookup (mapExtend [] ps) k = lastPairLookup ps k := by
  induction ps using List.reverseRecOn with
  | nil => rfl
  | append_singleton ps kv ih =>
    have hstep : mapExtend [] (ps ++ [kv]) = mapInsert (mapExtend [] ps) kv.1 kv.2 := by
      rw [mapExtend, List.foldl_append]
      rfl
    have hrev : (ps ++ [kv]).reverse = kv :: ps.reverse := by simp
    rw [hstep, mapLookup_insert, ih]
    unfold lastPairLookup
    rw [hrev]
    by_cases hk : k = kv.1
    · rw [if_pos hk, List.find?_cons_of_pos _ (by simp [hk]), Option.map_some']
    · rw [if_neg hk,
        List.find?_cons_of_neg _ (by simp only [beq_iff_eq]; exact fun hh => hk hh.symm)]

theorem noDupKeys_extend {qs base : List (List Nat × List Nat)}
    (hb : NoDupKeys base) : NoDupKeys (mapExtend base qs) := by
  induction qs generalizing base with
  | nil => exact hb
  | cons kv qs ih => exact ih (noDupKeys_insert hb)

theorem mapExtend_mem {qs : List (List Nat × List Nat)} :
    ∀ {base : List (List Nat × List Nat)}, ∀ kv ∈ mapExtend base qs,
      kv ∈ base ∨ kv ∈ qs := by
  induction qs with
  | nil =>
    intro base kv h
    exact Or.inl h
  | cons kv0 qs ih =>
    intro base kv h
    rw [mapExtend_cons] at h
    rcases ih kv h with h' | h'
    · rcases mapInsert_mem kv h' with h'' | h''
      · exact Or.inl h''
      · exact Or.inr (by rw [h'']; exact List.mem_cons_self _ _)
    · exact Or.inr (List.mem_cons_of_mem _ h')

theorem decodeMap_nodup (s : List Nat) : NoDupKeys (decodeMap s) :=
  noDupKeys_extend (by simp [NoDupKeys])

theorem decodeMap_lookup (s : List Nat) (k : List Nat) :
    mapLookup (decodeMap s) k = lastPairLookup (urldecodePairs s) k :=
  mapExtend_lookup_last _ _

theorem option_match_id {X : Type} (o : Option X) :
    (match o with | some v => some v | none => none) = o := by
  cases o <;> rfl

theorem paqPath_ne_nil (s : List Nat) : paqPath s ≠ [] := by
  rw [paqPath]
  by_cases h : (s.takeWhile (fun b => b != 0x3F)).isEmpty = true
  · simp [h]
  · simp only [h, Bool.false_eq_true, not_false_eq_true, ite_false]
    intro hc
    rw [hc] at h
    exact h rfl

/-! ## Helper lemmas: joining and splitting serialised pairs -/

theorem joinPairs_single (p : List Nat) : joinPairs [p] = p := rfl

theorem joinPairs_cons2 (p p2 : List Nat) (ps : List (List Nat)) :
    joinPairs (p :: p2 :: ps) = p ++ 0x26 :: joinPairs (p2 :: ps) := rfl

theorem joinPairs_mem {ps : List (List Nat)} :
    ∀ c ∈ joinPairs ps, (∃ p ∈ ps, c ∈ p) ∨ c = 0x26 := by
  induction ps with
  | nil =>
    intro c hc
    exact absurd hc (by simp [joinPairs])
  | cons p ps ih =>
    intro c hc
    cases ps with
    | nil =>
      rw [joinPairs_single] at hc
      exact Or.inl ⟨p, by simp, hc⟩
    | cons p2 ps2 =>
      rw [joinPairs_cons2] at hc
      rcases List.mem_append.mp hc with h' | h'
      · exact Or.inl ⟨p, by simp, h'⟩
      · rcases List.mem_cons.mp h' with rfl | h''
        · exact Or.inr rfl
        · rcases ih c h'' with ⟨p', hp', hc'⟩ | h3
          · exact Or.inl ⟨p', by simp [hp'], hc'⟩
          · exact Or.inr h3

theorem joinPairs_split {ps : List (List Nat)}
    (hamp : ∀ p ∈ ps, ∀ c ∈ p, c ≠ 0x26) (hps : ps ≠ []) :
    splitOnByte 0x26 (joinPairs ps) = ps := by
  induction ps with
  | nil => exact absurd rfl hps
  | cons p ps ih =>
    cases ps with
    | nil =>
      rw [joinPairs_single]
      exact splitOnByte_no_sep (hamp p (by simp))
    | cons p2 ps2 =>
      rw [joinPairs_cons2, splitOnByte_append_sep,
        splitOnByte_no_sep (hamp p (by simp)),
        ih (fun x hx => hamp x (by simp [hx])) (by simp)]
      rfl

theorem urlencode_query_allowed {m : List (List Nat × List Nat)}
    (hm : ∀ kv ∈ m, (∀ b ∈ kv.1, b < 256) ∧ (∀ b ∈ kv.2, b < 256)) :
    ∀ c ∈ urlencode m, queryAllowed c = true := by
  intro c hc
  rw [urlencode] at hc
  rcases joinPairs_mem c hc with ⟨p, hp, hcp⟩ | rfl
  · obtain ⟨kv, hkv, rfl⟩ := List.mem_map.mp hp
    rcases List.mem_append.mp hcp with h' | h'
    · exact (encodePart_props (hm kv hkv).1 c h').1
    · rcases List.mem_cons.mp h' with rfl | h''
      · decide
      · exact (encodePart_props (hm kv hkv).2 c h'').1
  · decide

theorem urlencode_eq_nil {m : List (List Nat × List Nat)}
    (h : urlencode m = []) : m = [] := by
  cases m with
  | nil => rfl
  | cons kv m' =>
    exfalso
    rw [urlencode, List.map_cons] at h
    cases m' with
    | nil =>
      rw [List.map_nil, joinPairs_single] at h
      simp at h
    | cons kv2 m2 =>
      rw [List.map_cons, joinPairs_cons2] at h
      simp at h

theorem urldecodePairs_urlencode {m : List (List Nat × List Nat)}
    (hm : ∀ kv ∈ m, (∀ b ∈ kv.1, b < 256) ∧ (∀ b ∈ kv.2, b < 256)) :
    urldecodePairs (urlencode m) =
      m.map (fun kv => (utf8Lossy kv.1, utf8Lossy kv.2)) := by
  cases m with
  | nil => rfl
  | cons kv0 m' =>
    have hamp : ∀ p ∈ (kv0 :: m').map
        (fun kv => encodePart kv.1 ++ 0x3D :: encodePart kv.2), ∀ c ∈ p, c ≠ 0x26 := by
      intro p hp c hc
      obtain ⟨kv, hkv, rfl⟩ := List.mem_map.mp hp
      rcases List.mem_append.mp hc with h' | h'
      · exact (encodePart_props (hm kv hkv).1 c h').2.1
      · rcases List.mem_cons.mp h' with rfl | h''
        · norm_num
        · exact (encodePart_props (hm kv hkv).2 c h'').2.1
    rw [urlencode, urldecodePairs, joinPairs_split hamp (by simp),
      List.filter_eq_self.mpr (by
        intro p hp
        obtain ⟨kv, hkv, rfl⟩ := List.mem_map.mp hp
        simp),
      List.map_map]
    apply List.map_congr_left
    intro kv hkv
    have hk256 := (hm kv hkv).1
    have hv256 := (hm kv hkv).2
    have hek : ∀ x ∈ encodePart kv.1, (fun b => b != 0x3D) x = true := by
      intro x hx
      simpa using (encodePart_props hk256 x hx).2.2
    show (decodePart (pairName _), decodePart (pairValue _)) = _
    rw [show pairName (encodePart kv.1 ++ 0x3D :: encodePart kv.2) = encodePart kv.1 from
        takeWhile_append_stop hek (by simp),
      show pairValue (encodePart kv.1 ++ 0x3D :: encodePart kv.2) = encodePart kv.2 from by
        rw [pairValue, dropWhile_append_stop hek (by simp)]
        rfl,
      decodePart_encodePart hk256, decodePart_encodePart hv256]

/-! ## Helper lemmas: membership through splitting and decoding -/

theorem splitOnByte_mem_subset {sep : Nat} {s : List Nat} :
    ∀ p ∈ splitOnByte sep s, ∀ x ∈ p, x ∈ s := by
  induction s with
  | nil =>
    intro p hp x hx
    rcases List.mem_singleton.mp hp with rfl
    exact absurd hx (by simp)
  | cons b rest ih =>
    intro p hp x hx
    rw [splitOnByte_cons] at hp
    by_cases hb : b = sep
    · rw [if_pos hb] at hp
      rcases List.mem_cons.mp hp with rfl | hp'
      · exact absurd hx (by simp)
      · exact List.mem_cons_of_mem b (ih p hp' x hx)
    · rw [if_neg hb] at hp
      rcases hsp : splitOnByte sep rest with _ | ⟨p0, ps⟩
      · exact absurd hsp (splitOnByte_ne_nil sep rest)
      · rw [hsp] at hp
        rcases List.mem_cons.mp hp with rfl | hp'
        · rcases List.mem_cons.mp hx with rfl | hx'
          · exact List.mem_cons_self x rest
          · exact List.mem_cons_of_mem b
              (ih p0 (hsp ▸ List.mem_cons_self p0 ps) x hx')
        · exact List.mem_cons_of_mem b
            (ih p (hsp ▸ List.mem_cons_of_mem p0 hp') x hx)

theorem pairName_subset {p : List Nat} : ∀ x ∈ pairName p, x ∈ p := by
  rw [pairName]
  induction p with
  | nil => simp
  | cons b t ih =>
    rw [List.takeWhile_cons]
    by_cases hb : (b != 0x3D) = true
    · rw [if_pos hb]
      intro x hx
      rcases List.mem_cons.mp hx with rfl | hx'
      · simp
      · exact List.mem_cons_of_mem b (ih x hx')
    · rw [if_neg hb]
      simp

theorem dropWhile_subset_self {pfn : Nat → Bool} {t : List Nat} :
    ∀ x ∈ t.dropWhile pfn, x ∈ t := by
  induction t with
  | nil => simp
  | cons b t ih =>
    rw [List.dropWhile_cons]
    by_cases hb : pfn b = true
    · rw [if_pos hb]
      intro x hx
      exact List.mem_cons_of_mem b (ih x hx)
    · rw [if_neg hb]
      intro x hx
      exact hx

theorem pairValue_subset {p : List Nat} : ∀ x ∈ pairValue p, x ∈ p := by
  intro x hx
  rw [pairValue] at hx
  exact dropWhile_subset_self x (List.mem_of_mem_tail hx)

theorem mapExtend_lookup_nil {merged : List (List Nat × List Nat)}
    (h : NoDupKeys merged) (k : List Nat) :
    mapLookup (mapExtend [] merged) k = mapLookup merged k := by
  rw [mapExtend_lookup h]
  rcases hm : mapLookup merged k with _ | v <;> rfl

/-! ## Core computation of `replace_queries` -/

theorem replace_queries_core {uri : Uri} (M : List (List Nat × List Nat))
    (h1 : uri.scheme.isSome = true → uri.authority.isSome = true)
    (h2 : uri.scheme = none → uri.authority = none)
    (hpath : ∀ b ∈ (uri.intoParts.paq.map paqPath).getD [0x2F], pathAllowed b = true)
    (henc : ∀ c ∈ urlencode (mapExtend
        (decodeMap ((uri.intoParts.paq.bind paqQuery).getD [])) M),
      queryAllowed c = true) :
    replace_queries uri (some M) =
      (.ok (), ⟨uri.scheme, uri.authority,
        (uri.intoParts.paq.map paqPath).getD [0x2F] ++
          (if (urlencode (mapExtend (decodeMap
              ((uri.intoParts.paq.bind paqQuery).getD [])) M)).isEmpty then []
           else 0x3F :: urlencode (mapExtend (decodeMap
              ((uri.intoParts.paq.bind paqQuery).getD [])) M))⟩) := by
  unfold replace_queries
  dsimp only
  by_cases he : (urlencode (mapExtend (decodeMap
      ((uri.intoParts.paq.bind paqQuery).getD [])) M)).isEmpty = true
  · rw [if_pos he, if_pos he, paqParse_self_of hpath]
    dsimp only
    rw [intoParts_scheme, intoParts_authority, fromParts_some_of h1 h2,
      List.append_nil]
  · rw [if_neg he, if_neg he, paqParse_append_query hpath henc]
    dsimp only
    rw [intoParts_scheme, intoParts_authority, fromParts_some_of h1 h2]

/-- Claim C2 (amended): for every URI with a scheme or without an authority
component (an authority-form URI without a scheme makes the call fail at
`Uri::from_parts`), with a well-formed query string, and for every override
map `M`, `replace_queries(uri, Some(M))` succeeds and yields a URI whose
query, decoded as a key-to-value map, maps each key of `M` to `M`'s value
and each other key to the last occurrence of that key in the original
query; the new query is reattached to the existing path, defaulting to `/`
when no path exists. -/
theorem replace_queries_spec :
    ∀ (uri : Uri) (M : List (List Nat × List Nat)),
      PaqValid uri.paqData →
      (uri.scheme.isSome = true → uri.authority.isSome = true) →
      (uri.authority = none ∨ uri.scheme.isSome = true) →
      NoDupKeys M →
      (∀ kv ∈ M, ValidUtf8 kv.1 ∧ ValidUtf8 kv.2 ∧
        (∀ b ∈ kv.1, b < 256) ∧ (∀ b ∈ kv.2, b < 256)) →
      WellFormedQuery ((uri.intoParts.paq.bind paqQuery).getD []) →
      (replace_queries uri (some M)).1 = .ok () ∧
      paqPath ((replace_queries uri (some M)).2).paqData =
        (uri.intoParts.paq.map paqPath).getD [0x2F] ∧
      (∀ k, mapLookup (decodeMap
          ((paqQuery ((replace_queries uri (some M)).2).paqData).getD [])) k =
        (match mapLookup M k with
         | some v => some v
         | none => lastPairLookup
             (urldecodePairs ((uri.intoParts.paq.bind paqQuery).getD [])) k)) := by
  intro uri M hv h1 h2 hnd hM hwfq
  have hsa : uri.scheme = none → uri.authority = none := by
    intro hs
    rcases h2 with h | h
    · exact h
    · rw [hs] at h
      exact absurd h (by simp)
  have holdq : ∀ b ∈ (uri.intoParts.paq.bind paqQuery).getD [],
      queryAllowed b = true := by
    rcases hpq : uri.intoParts.paq with _ | d
    · simp
    · have hd : uri.paqData = d := intoParts_paq_some hpq
      intro b hb
      apply paqValid_query_allowed hv
      rw [hd]
      simpa using hb
  have holdq256 : ∀ b ∈ (uri.intoParts.paq.bind paqQuery).getD [], b < 256 :=
    fun b hb => (queryAllowed_props (holdq b hb)).2
  have hpath : ∀ b ∈ (uri.intoParts.paq.map paqPath).getD [0x2F],
      pathAllowed b = true := by
    rcases hpq : uri.intoParts.paq with _ | d
    · intro b hb
      simp only [Option.map_none', Option.getD_none] at hb
      rcases List.mem_singleton.mp hb with rfl
      decide
    · have hd : uri.paqData = d := intoParts_paq_some hpq
      intro b hb
      simp only [Option.map_some', Option.getD_some] at hb
      exact paqValid_path_allowed (hd ▸ hv) b hb
  have hpathq : ∀ b ∈ (uri.intoParts.paq.map paqPath).getD [0x2F], b ≠ 0x3F :=
    fun b hb => (pathAllowed_props (hpath b hb)).1
  have hpathne : (uri.intoParts.paq.map paqPath).getD [0x2F] ≠ [] := by
    rcases uri.intoParts.paq with _ | d
    · simp
    · simpa using paqPath_ne_nil d
  have hqm_entries : ∀ kv ∈ decodeMap ((uri.intoParts.paq.bind paqQuery).getD []),
      ValidUtf8 kv.1 ∧ ValidUtf8 kv.2 ∧
      (∀ b ∈ kv.1, b < 256) ∧ (∀ b ∈ kv.2, b < 256) := by
    intro kv hkv
    have hkv' : kv ∈ urldecodePairs ((uri.intoParts.paq.bind paqQuery).getD []) := by
      rcases mapExtend_mem kv hkv with h | h
      · exact absurd h (List.not_mem_nil kv)
      · exact h
    obtain ⟨p, hp, rfl⟩ := List.mem_map.mp hkv'
    obtain ⟨hw1, hw2⟩ := hwfq p hp
    have hw1' : utf8Lossy (percentDecode ((pairName p).map plusToSpace)) =
        percentDecode ((pairName p).map plusToSpace) := hw1
    have hw2' : utf8Lossy (percentDecode ((pairValue p).map plusToSpace)) =
        percentDecode ((pairValue p).map plusToSpace) := hw2
    have hpsub : ∀ x ∈ p, x ∈ (uri.intoParts.paq.bind paqQuery).getD [] :=
      fun x hx => splitOnByte_mem_subset p (List.mem_of_mem_filter hp) x hx
    have hname256 : ∀ b ∈ (pairName p).map plusToSpace, b < 256 := by
      intro b hb
      obtain ⟨c, hc, rfl⟩ := List.mem_map.mp hb
      have := holdq256 c (hpsub c (pairName_subset c hc))
      rw [plusToSpace]
      split_ifs <;> omega
    have hval256 : ∀ b ∈ (pairValue p).map plusToSpace, b < 256 := by
      intro b hb
      obtain ⟨c, hc, rfl⟩ := List.mem_map.mp hb
      have := holdq256 c (hpsub c (pairValue_subset c hc))
      rw [plusToSpace]
      split_ifs <;> omega
    refine ⟨?_, ?_, ?_, ?_⟩
    · show utf8Lossy (decodePart (pairName p)) = decodePart (pairName p)
      rw [decodePart, hw1', hw1']
    · show utf8Lossy (decodePart (pairValue p)) = decodePart (pairValue p)
      rw [decodePart, hw2', hw2']
    · show ∀ b ∈ decodePart (pairName p), b < 256
      rw [decodePart, hw1']
      exact percentDecode_lt256 _ hname256
    · show ∀ b ∈ decodePart (pairValue p), b < 256
      rw [decodePart, hw2']
      exact percentDecode_lt256 _ hval256
  have hmerged_entries : ∀ kv ∈ mapExtend
      (decodeMap ((uri.intoParts.paq.bind paqQuery).getD [])) M,
      (∀ b ∈ kv.1, b < 256) ∧ (∀ b ∈ kv.2, b < 256) := by
    intro kv hkv
    rcases mapExtend_mem kv hkv with h | h
    · exact ⟨(hqm_entries kv h).2.2.1, (hqm_entries kv h).2.2.2⟩
    · exact ⟨(hM kv h).2.2.1, (hM kv h).2.2.2⟩
  have hmerged_valid : ∀ kv ∈ mapExtend
      (decodeMap ((uri.intoParts.paq.bind paqQuery).getD [])) M,
      ValidUtf8 kv.1 ∧ ValidUtf8 kv.2 := by
    intro kv hkv
    rcases mapExtend_mem kv hkv with h | h
    · exact ⟨(hqm_entries kv h).1, (hqm_entries kv h).2.1⟩
    · exact ⟨(hM kv h).1, (hM kv h).2.1⟩
  have hmerged_nodup : NoDupKeys (mapExtend
      (decodeMap ((uri.intoParts.paq.bind paqQuery).getD [])) M) :=
    noDupKeys_extend (decodeMap_nodup _)
  have henc := urlencode_query_allowed hmerged_entries
  rw [replace_queries_core M h1 hsa hpath henc]
  by_cases he : (urlencode (mapExtend
      (decodeMap ((uri.intoParts.paq.bind paqQuery).getD [])) M)).isEmpty = true
  · have hmerged_nil : mapExtend
        (decodeMap ((uri.intoParts.paq.bind paqQuery).getD [])) M = [] :=
      urlencode_eq_nil (by
        rcases hll : urlencode (mapExtend
          (decodeMap ((uri.intoParts.paq.bind paqQuery).getD [])) M) with _ | ⟨c, l⟩
        · rfl
        · rw [hll] at he
          exact absurd he (by simp))
    refine ⟨rfl, ?_, ?_⟩
    · dsimp only
      rw [if_pos he, List.append_nil, paqPath_no_sep hpathq hpathne]
    · intro k
      dsimp only
      rw [if_pos he, List.append_nil, paqQuery_no_sep hpathq]
      have hres := mapExtend_lookup hnd
        (decodeMap ((uri.intoParts.paq.bind paqQuery).getD [])) k
      rw [hmerged_nil, decodeMap_lookup] at hres
      exact hres
  · refine ⟨rfl, ?_, ?_⟩
    · dsimp only
      rw [if_neg he, paqPath_append_sep _ hpathq hpathne]
    · intro k
      dsimp only
      rw [if_neg he, paqQuery_append_sep _ hpathq, Option.getD_some]
      have hdp : urldecodePairs (urlencode (mapExtend
          (decodeMap ((uri.intoParts.paq.bind paqQuery).getD [])) M)) =
          mapExtend (decodeMap ((uri.intoParts.paq.bind paqQuery).getD [])) M := by
        rw [urldecodePairs_urlencode hmerged_entries]
        have hcong : ∀ kv ∈ mapExtend
            (decodeMap ((uri.intoParts.paq.bind paqQuery).getD [])) M,
            (fun kv : List Nat × List Nat => (utf8Lossy kv.1, utf8Lossy kv.2)) kv = kv := by
          intro kv hkv
          obtain ⟨hv1, hv2⟩ := hmerged_valid kv hkv
          have hv1' : utf8Lossy kv.1 = kv.1 := hv1
          have hv2' : utf8Lossy kv.2 = kv.2 := hv2
          simp [hv1', hv2']
        rw [List.map_congr_left hcong]
        simp
      rw [decodeMap, hdp, mapExtend_lookup_nil hmerged_nodup,
        mapExtend_lookup hnd]
      rcases hmk : mapLookup M k with _ | v
      · dsimp only
        exact decodeMap_lookup _ _
      · rfl

/-- Counterexample for C2: on the authority-form URI `example.com` (no
scheme, no path-and-query, which has a trivially well-formed (absent)
query string), replacing queries with `{foo: bar}` does not yield a URI at
all: `Uri::from_parts` rejects an authority with a path but no scheme, so
the call returns `InvalidUri` and the URI is unchanged. -/
theorem replace_queries_authority_form_fails :
    (replace_queries ⟨none, some (asciiBytes "example.com"), []⟩
        (some [(asciiBytes "foo", asciiBytes "bar")])).1 = .error .invalidUri ∧
    (replace_queries ⟨none, some (asciiBytes "example.com"), []⟩
        (some [(asciiBytes "foo", asciiBytes "bar")])).2 =
      ⟨none, some (asciiBytes "example.com"), []⟩ ∧
    Uri.query ⟨none, some (asciiBytes "example.com"), []⟩ = none := by decide

/-- Witness for C2: replacing queries `{foo: bar}` on `/lgtm?os=linux&foo=foo`
succeeds, keeps path `/lgtm`, and the resulting query set is
`{os: linux, foo: bar}`. -/
theorem replace_queries_spec_witness :
    ((replace_queries ⟨none, none, asciiBytes "/lgtm?os=linux&foo=foo"⟩
        (some [(asciiBytes "foo", asciiBytes "bar")])).1 = .ok () ∧
      paqPath ((replace_queries ⟨none, none, asciiBytes "/lgtm?os=linux&foo=foo"⟩
          (some [(asciiBytes "foo", asciiBytes "bar")])).2).paqData =
        ((Uri.intoParts ⟨none, none, asciiBytes "/lgtm?os=linux&foo=foo"⟩).paq.map
            paqPath).getD [0x2F] ∧
      (∀ k, mapLookup (decodeMap
          ((paqQuery ((replace_queries ⟨none, none, asciiBytes "/lgtm?os=linux&foo=foo"⟩
              (some [(asciiBytes "foo", asciiBytes "bar")])).2).paqData).getD [])) k =
        (match mapLookup [(asciiBytes "foo", asciiBytes "bar")] k with
         | some v => some v
         | none => lastPairLookup (urldecodePairs
             (((Uri.intoParts ⟨none, none, asciiBytes "/lgtm?os=linux&foo=foo"⟩).paq.bind
                paqQuery).getD [])) k))) ∧
    mapLookup (decodeMap
        ((paqQuery ((replace_queries ⟨none, none, asciiBytes "/lgtm?os=linux&foo=foo"⟩
            (some [(asciiBytes "foo", asciiBytes "bar")])).2).paqData).getD []))
      (asciiBytes "os") = some (asciiBytes "linux") ∧
    mapLookup (decodeMap
        ((paqQuery ((replace_queries ⟨none, none, asciiBytes "/lgtm?os=linux&foo=foo"⟩
            (some [(asciiBytes "foo", asciiBytes "bar")])).2).paqData).getD []))
      (asciiBytes "foo") = some (asciiBytes "bar") :=
  ⟨replace_queries_spec ⟨none, none, asciiBytes "/lgtm?os=linux&foo=foo"⟩
      [(asciiBytes "foo", asciiBytes "bar")] (by decide) (by decide)
      (Or.inl rfl) (by decide) (by decide) (by decide),
   by decide, by decide⟩

/-- Claim C9: each URI rewriter assigns the rewritten URI only after every
fallible step has succeeded; whenever it returns an error, the URI it was
given is returned exactly as it was. -/
theorem rewrite_error_leaves_uri_unchanged :
    (∀ (uri : Uri) (arg : Option (List Nat)) (e : ProxyError),
      (append_queries uri arg).1 = .error e → (append_queries uri arg).2 = uri) ∧
    (∀ (uri : Uri) (arg : Option (List Nat)) (e : ProxyError),
      (replace_path uri arg).1 = .error e → (replace_path uri arg).2 = uri) ∧
    (∀ (uri : Uri) (arg : Option (List (List Nat × List Nat))) (e : ProxyError),
      (replace_queries uri arg).1 = .error e → (replace_queries uri arg).2 = uri) := by
  refine ⟨?_, ?_, ?_⟩ <;> intro uri arg e
  · unfold append_queries
    dsimp only
    split
    · intro h; exact absurd h (by simp)
    · split
      · intro _; rfl
      · split
        · intro _; rfl
        · intro h; simp at h
  · unfold replace_path
    dsimp only
    split
    · intro h; exact absurd h (by simp)
    · split
      · split
        · intro _; rfl
        · split
          · intro _; rfl
          · intro h; simp at h
      · split
        · intro _; rfl
        · intro h; simp at h
  · unfold replace_queries
    dsimp only
    split
    · intro h; exact absurd h (by simp)
    · split
      · intro _; rfl
      · split
        · intro _; rfl
        · intro h; simp at h

/-- Witness for C9: concrete failing rewrites (a space in the appended
fragment, a space in the replacement path, a replace-queries call on an
authority-form URI) leave the URI exactly as it was. -/
theorem rewrite_error_leaves_uri_unchanged_witness :
    (append_queries ⟨none, none, asciiBytes "/"⟩ (some (asciiBytes "a b"))).2 =
      ⟨none, none, asciiBytes "/"⟩ ∧
    (replace_path ⟨none, none, asciiBytes "/x?q=1"⟩ (some (asciiBytes "a b"))).2 =
      ⟨none, none, asciiBytes "/x?q=1"⟩ ∧
    (replace_queries ⟨none, some (asciiBytes "example.com"), []⟩
        (some [(asciiBytes "foo", asciiBytes "bar")])).2 =
      ⟨none, some (asciiBytes "example.com"), []⟩ :=
  ⟨rewrite_error_leaves_uri_unchanged.1 _ _ .invalidUri (by decide),
   rewrite_error_leaves_uri_unchanged.2.1 _ _ .invalidUri (by decide),
   rewrite_error_leaves_uri_unchanged.2.2 _ _ .invalidUri (by decide)⟩

end Tproxy
